import Mathlib

/-!
Verification of the warm-start decomposition/stitching core
(`src/warmstart.py`: `filter_problem_data_per_job` and
`find_initial_solution_by_solving_per_job`).

The pyjobshop data types are embedded as plain structures carrying exactly
the fields the code reads or writes.  Python constraint objects live in an
explicit store (`Store`), and constraint containers hold pointers into it,
so that the code's copy-before-mutate discipline (`deepcopy` at line 53,
`copy(cons)` at lines 91 and 114) is visible: mutation of a constraint
object is a `List.set` on the store, and preservation of the input
instance is a provable statement rather than a triviality of purity.
Python dicts are association lists with last-binding-wins lookup
(`dfind`), so a missing key is `none` (KeyError).  Code paths that can
raise (IndexError, KeyError, the final `assert`) return `Option`.
-/

namespace Warmstart

/-- A pointer to a constraint object in the store. -/
abbrev Ptr := Nat

/-- A Python constraint object, duck-typed: the attributes the code probes
with `hasattr` are `Option`-valued (absent = `none`); `payload` stands for
any further attributes the code never touches. -/
structure Cons where
  task1 : Option Nat := none
  task2 : Option Nat := none
  mode1 : Option Nat := none
  modes2 : Option (List Nat) := none
  payload : Nat := 0
deriving Repr, DecidableEq

/-- The heap of constraint objects. -/
abbrev Store := List Cons

/-- The default (all attributes absent) constraint object. -/
def defaultCons : Cons := {}

/-- A pyjobshop `Mode`: one resource-assignment option for a task. -/
structure Mode where
  task : Nat
  resources : List Nat
  duration : Nat
  demands : List Nat
deriving Repr, DecidableEq

/-- A pyjobshop `Task`, with the fields the code reads or writes
(`Task(job=0, allow_idle=task.allow_idle)`). -/
structure Task where
  job : Nat
  allow_idle : Bool
deriving Repr, DecidableEq

/-- A pyjobshop `Job`: the ordered list of its task indices. -/
structure Job where
  tasks : List Nat
deriving Repr, DecidableEq

/-- The two-task constraint kinds of the `allowed_constraints` list. -/
inductive CKind
  | start_before_end
  | start_before_start
  | end_before_start
  | end_before_end
  | consecutive
  | identical_resources
  | different_resources
  | same_sequence
  | setup_times
deriving Repr, DecidableEq

/-- The pyjobshop constraints container: one pointer list per kind.
`type(constraints)()` builds the empty container (all defaults). -/
structure Constraints where
  start_before_end : List Ptr := []
  start_before_start : List Ptr := []
  end_before_start : List Ptr := []
  end_before_end : List Ptr := []
  consecutive : List Ptr := []
  identical_resources : List Ptr := []
  different_resources : List Ptr := []
  same_sequence : List Ptr := []
  setup_times : List Ptr := []
  mode_dependencies : List Ptr := []
deriving Repr, DecidableEq

/-- Python `getattr(constraints, cname)` for the nine two-task kinds. -/
def getKind (c : Constraints) : CKind → List Ptr
  | .start_before_end => c.start_before_end
  | .start_before_start => c.start_before_start
  | .end_before_start => c.end_before_start
  | .end_before_end => c.end_before_end
  | .consecutive => c.consecutive
  | .identical_resources => c.identical_resources
  | .different_resources => c.different_resources
  | .same_sequence => c.same_sequence
  | .setup_times => c.setup_times

/-- Python `setattr(new_constraints, cname, valid_cons)` for the nine
two-task kinds. -/
def setKind (c : Constraints) (k : CKind) (v : List Ptr) : Constraints :=
  match k with
  | .start_before_end => { c with start_before_end := v }
  | .start_before_start => { c with start_before_start := v }
  | .end_before_start => { c with end_before_start := v }
  | .end_before_end => { c with end_before_end := v }
  | .consecutive => { c with consecutive := v }
  | .identical_resources => { c with identical_resources := v }
  | .different_resources => { c with different_resources := v }
  | .same_sequence => { c with same_sequence := v }
  | .setup_times => { c with setup_times := v }

/-- The attribute name of a two-task kind, as used in the warning text. -/
def kindName : CKind → String
  | .start_before_end => "start_before_end"
  | .start_before_start => "start_before_start"
  | .end_before_start => "end_before_start"
  | .end_before_end => "end_before_end"
  | .consecutive => "consecutive"
  | .identical_resources => "identical_resources"
  | .different_resources => "different_resources"
  | .same_sequence => "same_sequence"
  | .setup_times => "setup_times"

/-- The `allowed_constraints` list of the source (lines 56-66), in order. -/
def allowed_constraints : List CKind :=
  [.start_before_end, .start_before_start, .end_before_start,
   .end_before_end, .consecutive, .identical_resources,
   .different_resources, .same_sequence, .setup_times]

/-- A pyjobshop `ProblemData`: jobs, tasks, resources (opaque identities),
modes, and the constraints container. -/
structure ProblemData where
  jobs : List Job
  tasks : List Task
  resources : List Nat
  modes : List Mode
  constraints : Constraints
deriving Repr, DecidableEq

/-- A Python dict with `Nat` keys and values, as the list of its insertions
in order. -/
abbrev Dict := List (Nat × Nat)

/-- Dict lookup: the value of the LAST insertion with the given key (Python
assignment overwrites), `none` when the key is absent (KeyError). -/
def dfind : Dict → Nat → Option Nat
  | [], _ => none
  | p :: rest, k =>
    match dfind rest k with
    | some v => some v
    | none => if p.fst = k then some p.snd else none

/-- Python `enumerate` starting at `n`. -/
def enumF (n : Nat) : List α → List (Nat × α)
  | [] => []
  | a :: l => (n, a) :: enumF (n + 1) l

/-- Python `range(s, s + n)`. -/
def rangeFrom (s : Nat) : Nat → List Nat
  | 0 => []
  | n + 1 => s :: rangeFrom (s + 1) n

/-- The reversed translation dict for the list `l` of old indices: the
pairs `(l i, n + i)` in insertion order. -/
def revPairs (n : Nat) : List Nat → Dict
  | [] => []
  | g :: l => (g, n) :: revPairs (n + 1) l

/-- Fallible map over a list (a Python comprehension whose body may raise):
`none` as soon as one element fails. -/
def mapO (f : α → Option β) : List α → Option (List β)
  | [] => some []
  | a :: l => do
    let b ← f a
    let bs ← mapO f l
    some (b :: bs)

/-- The state threaded through the task/mode loops of
`filter_problem_data_per_job` (lines 21-48 of the source). -/
structure LoopSt where
  task_translation : Dict := []
  task_translation_reversed : Dict := []
  modes_translation : Dict := []
  modes_translation_reversed : Dict := []
  new_mode_index : Nat := 0
  modes_for_problem_data : List Mode := []
  tasks : List Task := []
deriving Repr, DecidableEq

/-- The inner loop over `enumerate(data.modes)` (lines 39-46): for every
mode owned by `old_task_index`, record both translation entries, bump the
mode counter, and append the mode re-owned by `new_task_index`. -/
def modeLoop (new_task_index old_task_index : Nat) (s : LoopSt) :
    List (Nat × Mode) → LoopSt
  | [] => s
  | (old_mode_index, m) :: rest =>
    if m.task = old_task_index then
      modeLoop new_task_index old_task_index
        { s with
          modes_translation :=
            s.modes_translation ++ [(s.new_mode_index, old_mode_index)],
          modes_translation_reversed :=
            s.modes_translation_reversed ++ [(old_mode_index, s.new_mode_index)],
          new_mode_index := s.new_mode_index + 1,
          modes_for_problem_data := s.modes_for_problem_data ++
            [⟨new_task_index, m.resources, m.duration, m.demands⟩] }
        rest
    else modeLoop new_task_index old_task_index s rest

/-- The outer loop over `old_job.tasks` (lines 31-48): record the task
translation pair, fetch the task (IndexError = `none`), and run the mode
loop; `new_task_index` is the running counter. -/
def taskLoop (data : ProblemData) (s : LoopSt) (new_task_index : Nat) :
    List Nat → Option LoopSt
  | [] => some s
  | old_task_index :: rest => do
    let s1 := { s with
      task_translation :=
        s.task_translation ++ [(new_task_index, old_task_index)],
      task_translation_reversed :=
        s.task_translation_reversed ++ [(old_task_index, new_task_index)] }
    let task ← data.tasks.get? old_task_index
    let s2 := { s1 with tasks := s1.tasks ++ [task] }
    let s3 := modeLoop new_task_index old_task_index s2 (enumF 0 data.modes)
    taskLoop data s3 (new_task_index + 1) rest

/-- Copy the objects behind `ps` into fresh store cells (part of the
`deepcopy(data.constraints)` of line 53); fails if a pointer dangles. -/
def deepcopyList (σ : Store) (ps : List Ptr) : Option (Store × List Ptr) := do
  let vals ← mapO (fun p => σ.get? p) ps
  some (σ ++ vals, rangeFrom σ.length vals.length)

/-- `deepcopy(data.constraints)` (line 53): fresh copies of every
constraint object, field by field, and a container of the new pointers. -/
def deepcopyConstraints (σ : Store) (c : Constraints) :
    Option (Store × Constraints) := do
  let (σ1, sbe) ← deepcopyList σ c.start_before_end
  let (σ2, sbs) ← deepcopyList σ1 c.start_before_start
  let (σ3, ebs) ← deepcopyList σ2 c.end_before_start
  let (σ4, ebe) ← deepcopyList σ3 c.end_before_end
  let (σ5, con) ← deepcopyList σ4 c.consecutive
  let (σ6, idr) ← deepcopyList σ5 c.identical_resources
  let (σ7, dfr) ← deepcopyList σ6 c.different_resources
  let (σ8, sq) ← deepcopyList σ7 c.same_sequence
  let (σ9, st) ← deepcopyList σ8 c.setup_times
  let (σ10, md) ← deepcopyList σ9 c.mode_dependencies
  some (σ10, ⟨sbe, sbs, ebs, ebe, con, idr, dfr, sq, st, md⟩)

/-- The warning printed for a two-task constraint lacking `task1`/`task2`
(line 83 of the source). -/
def msgTT (kname : String) : String :=
  "Warning but cons of type " ++ kname ++
    " does not have a task 1 and task 2 attribute"

/-- The warning printed for a mode dependency lacking `mode1`/`modes2`
(line 107 of the source). -/
def msgMD : String :=
  "Warning but cons of type mode_dependencies does not have a " ++
    "mode 1 and mode 2 attribute"

/-- The loop over one kind's constraint list (lines 80-97): skip objects
lacking `task1`/`task2` with a warning; keep a constraint only when both
tasks are in the job's task set, copying the object and then overwriting
the copy's task fields with translated indices (KeyError = `none`). -/
def twoTaskLoop (jt : List Nat) (ttr : Dict) (kname : String) :
    Store → List Ptr → List String → List Ptr →
    Option (Store × List Ptr × List String)
  | σ, valid, ws, [] => some (σ, valid, ws)
  | σ, valid, ws, p :: rest => do
    let cons ← σ.get? p
    match cons.task1, cons.task2 with
    | some t1, some t2 =>
      if t1 ∈ jt ∧ t2 ∈ jt then do
        let nt1 ← dfind ttr t1
        let nt2 ← dfind ttr t2
        let q := σ.length
        let σ1 := σ ++ [cons]
        let σ2 := σ1.set q { cons with task1 := some nt1, task2 := some nt2 }
        twoTaskLoop jt ttr kname σ2 (valid ++ [q]) ws rest
      else twoTaskLoop jt ttr kname σ valid ws rest
    | _, _ => twoTaskLoop jt ttr kname σ valid (ws ++ [msgTT kname]) rest

/-- The loop over `allowed_constraints` (lines 73-99): filter each kind's
list from the deepcopied container `dc` and install the result on the
fresh container with `setattr`.  (`hasattr(constraints, cname)` always
holds for the container, and `getattr(...) or []` only replaces `None` by
the empty list, so both are identities here.) -/
def kindLoop (dc : Constraints) (jt : List Nat) (ttr : Dict) :
    Store → Constraints → List String → List CKind →
    Option (Store × Constraints × List String)
  | σ, nc, ws, [] => some (σ, nc, ws)
  | σ, nc, ws, k :: rest => do
    let (σ', valid, ws') ← twoTaskLoop jt ttr (kindName k) σ [] ws (getKind dc k)
    kindLoop dc jt ttr σ' (setKind nc k valid) ws' rest

/-- The `mode_dependencies` loop (lines 101-121): skip objects lacking
`mode1`/`modes2` with a warning; look up the driving mode in
`data.modes` (IndexError = `none`); keep the constraint only when the
driving mode's task is in the job's task set, copying the object and then
overwriting both mode fields with translated indices (KeyError =
`none`, also for every dependent mode). -/
def modeDepLoop (data : ProblemData) (jt : List Nat) (mtr : Dict) :
    Store → List Ptr → List String → List Ptr →
    Option (Store × List Ptr × List String)
  | σ, valid, ws, [] => some (σ, valid, ws)
  | σ, valid, ws, p :: rest => do
    let cons ← σ.get? p
    match cons.mode1, cons.modes2 with
    | some mode1_old_index, some modes2_old_indices => do
      let old_mode1 ← data.modes.get? mode1_old_index
      if old_mode1.task ∈ jt then do
        let nm1 ← dfind mtr mode1_old_index
        let nms2 ← mapO (dfind mtr) modes2_old_indices
        let q := σ.length
        let σ1 := σ ++ [cons]
        let σ2 := σ1.set q { cons with mode1 := some nm1, modes2 := some nms2 }
        modeDepLoop data jt mtr σ2 (valid ++ [q]) ws rest
      else modeDepLoop data jt mtr σ valid ws rest
    | _, _ => modeDepLoop data jt mtr σ valid (ws ++ [msgMD]) rest

/-- The collected outputs of `filter_problem_data_per_job`.  The Python
function returns `(new_data, task_translation, modes_translation)`; the
embedding also exposes the final store, the two reversed translation
dicts (the other half of the index translator), and the printed
warnings. -/
structure FilterResult where
  store : Store
  new_data : ProblemData
  task_translation : Dict
  modes_translation : Dict
  task_translation_reversed : Dict
  modes_translation_reversed : Dict
  warnings : List String
deriving Repr, DecidableEq

/-- `filter_problem_data_per_job` (lines 6-127 of the source).  `none`
models an uncaught exception (bad job index, bad task index, dangling
pointer, or a KeyError/IndexError in constraint translation). -/
def filter_problem_data_per_job (σ : Store) (data : ProblemData)
    (old_job_index : Nat) : Option FilterResult := do
  let old_job ← data.jobs.get? old_job_index
  let st ← taskLoop data {} 0 old_job.tasks
  let new_job_tasks ← mapO (dfind st.task_translation_reversed) old_job.tasks
  let new_job_data : Job := ⟨new_job_tasks⟩
  let new_task_data := st.tasks.map (fun t => Task.mk 0 t.allow_idle)
  let (σ1, dc) ← deepcopyConstraints σ data.constraints
  let (σ2, nc, ws) ←
    kindLoop dc old_job.tasks st.task_translation_reversed σ1 {} []
      allowed_constraints
  let (σ3, validmd, ws2) ←
    modeDepLoop data old_job.tasks st.modes_translation_reversed σ2 [] ws
      dc.mode_dependencies
  let new_constraints := { nc with mode_dependencies := validmd }
  some ⟨σ3,
        ⟨[new_job_data], new_task_data, data.resources,
         st.modes_for_problem_data, new_constraints⟩,
        st.task_translation, st.modes_translation,
        st.task_translation_reversed, st.modes_translation_reversed, ws2⟩

/-- One task's schedule entry (pyjobshop `TaskData`). -/
structure TaskData where
  mode : Nat
  start : Nat
  end_ : Nat
  resources : List Nat
deriving Repr, DecidableEq

/-- What the orchestrator reads off `result.best`: the per-task schedule
entries (indexed by the subproblem's local task index) and the makespan. -/
structure SolRes where
  tasks : List TaskData
  makespan : Nat
deriving Repr, DecidableEq

/-- The per-job loop of `find_initial_solution_by_solving_per_job`
(lines 143-171): extract the subproblem, call the external solver, append
each entry with its mode translated to the global index and both times
shifted by `relative_time_point`, then advance the offset by the
makespan plus the fixed 12-unit buffer. -/
def jobLoop (solve : ProblemData → SolRes) (data : ProblemData) :
    Store → List TaskData → Nat → List Nat →
    Option (Store × List TaskData × Nat)
  | σ, scheduled_tasks, relative_time_point, [] =>
    some (σ, scheduled_tasks, relative_time_point)
  | σ, scheduled_tasks, relative_time_point, job_index :: rest => do
    let r ← filter_problem_data_per_job σ data job_index
    let result := solve r.new_data
    let makespan := result.makespan
    let new_entries ← mapO (fun old_task_data =>
      (dfind r.modes_translation old_task_data.mode).map (fun gm =>
        TaskData.mk gm (old_task_data.start + relative_time_point)
          (old_task_data.end_ + relative_time_point) old_task_data.resources))
      result.tasks
    jobLoop solve data r.store (scheduled_tasks ++ new_entries)
      (relative_time_point + makespan + 12) rest

/-- `find_initial_solution_by_solving_per_job` (lines 130-177): run the
per-job loop over `range(0, len(data.jobs))` starting from offset 0, then
`assert len(initial_solution.tasks) == len(data.tasks)` (a failed assert
raises, modeled as `none`); returns the assembled entry list and the
final `relative_time_point`. -/
def find_initial_solution_by_solving_per_job (solve : ProblemData → SolRes)
    (σ : Store) (data : ProblemData) :
    Option (Store × List TaskData × Nat) := do
  let (σ', scheduled_tasks, relative_time_point) ←
    jobLoop solve data σ [] 0 (rangeFrom 0 data.jobs.length)
  if scheduled_tasks.length = data.tasks.length then
    some (σ', scheduled_tasks, relative_time_point)
  else none

/-- A deterministic stand-in for the external solver, used by witnesses and
counterexamples: schedule every local task at time 0 on its first mode. -/
def greedySolve (P : ProblemData) : SolRes :=
  let tds := (rangeFrom 0 P.tasks.length).map (fun k =>
    match (enumF 0 P.modes).find? (fun p => p.2.task = k) with
    | some p => TaskData.mk p.1 0 p.2.duration p.2.resources
    | none => TaskData.mk 0 0 0 [])
  ⟨tds, tds.foldl (fun acc td => max acc td.end_) 0⟩

/-- Values behind a pointer list, defaulting (never hit under the bounds
hypotheses) to the empty constraint object. -/
def derefsD (σ : Store) (ps : List Ptr) : List Cons :=
  ps.map (fun p => (σ.get? p).getD defaultCons)

/-- Retention test of the two-task loop: both task attributes present and
both tasks in the job's task set. -/
def keepTT (jt : List Nat) (c : Cons) : Bool :=
  match c.task1, c.task2 with
  | some t1, some t2 => decide (t1 ∈ jt) && decide (t2 ∈ jt)
  | _, _ => false

/-- The translated copy a retained two-task constraint becomes. -/
def transTT (ttr : Dict) (c : Cons) : Cons :=
  { c with task1 := dfind ttr (c.task1.getD 0),
           task2 := dfind ttr (c.task2.getD 0) }

/-- A two-task constraint lacking the `task1`/`task2` attributes. -/
def isMalfTT (c : Cons) : Bool := c.task1.isNone || c.task2.isNone

/-- The value-level output of the two-task loop on a list of constraint
values: keep and translate. -/
def ttSpec (jt : List Nat) (ttr : Dict) (cs : List Cons) : List Cons :=
  (cs.filter (keepTT jt)).map (transTT ttr)

/-- The warnings the two-task loop prints for one kind. -/
def warnTT (kname : String) (cs : List Cons) : List String :=
  (cs.filter isMalfTT).map (fun _ => msgTT kname)

/-- Retention test of the mode-dependency loop: both mode attributes
present and the driving mode's owning task in the job's task set. -/
def keepMD (data : ProblemData) (jt : List Nat) (c : Cons) : Bool :=
  match c.mode1, c.modes2 with
  | some m1, some _ =>
    match data.modes.get? m1 with
    | some mo => decide (mo.task ∈ jt)
    | none => false
  | _, _ => false

/-- The translated copy a retained mode dependency becomes. -/
def transMD (mtr : Dict) (c : Cons) : Cons :=
  { c with mode1 := dfind mtr (c.mode1.getD 0),
           modes2 := mapO (dfind mtr) (c.modes2.getD []) }

/-- A mode dependency lacking the `mode1`/`modes2` attributes. -/
def isMalfMD (c : Cons) : Bool := c.mode1.isNone || c.modes2.isNone

/-- The value-level output of the mode-dependency loop. -/
def mdSpec (data : ProblemData) (jt : List Nat) (mtr : Dict)
    (cs : List Cons) : List Cons :=
  (cs.filter (keepMD data jt)).map (transMD mtr)

/-- The warnings the mode-dependency loop prints. -/
def warnMDs (cs : List Cons) : List String :=
  (cs.filter isMalfMD).map (fun _ => msgMD)

/-- The warnings of the kind loop over a list of kinds, in order. -/
def warnAll (σ : Store) (c : Constraints) : List CKind → List String
  | [] => []
  | k :: ks => warnTT (kindName k) (derefsD σ (getKind c k)) ++ warnAll σ c ks

/-- All warnings `filter_problem_data_per_job` prints: one per malformed
constraint, in processing order. -/
def warningsSpec (σ : Store) (c : Constraints) : List String :=
  warnAll σ c allowed_constraints ++ warnMDs (derefsD σ c.mode_dependencies)

/-- The `enumerate(data.modes)` entries owned by one task. -/
def taskModePairs (data : ProblemData) (ot : Nat) : List (Nat × Mode) :=
  (enumF 0 data.modes).filter (fun p => p.2.task = ot)

/-- The global indices of the modes owned by one task, in order. -/
def taskModeIdx (data : ProblemData) (ot : Nat) : List Nat :=
  (taskModePairs data ot).map Prod.fst

/-- The global mode indices collected for a job's task list, in collection
order: this is the mode translator's list of old indices. -/
def jobGModes (data : ProblemData) : List Nat → List Nat
  | [] => []
  | ot :: rest => taskModeIdx data ot ++ jobGModes data rest

/-- The translated modes of the subproblem, task by task, with local task
indices starting at `n`. -/
def jobModesFrom (data : ProblemData) (n : Nat) : List Nat → List Mode
  | [] => []
  | ot :: rest =>
    (taskModePairs data ot).map
        (fun p => Mode.mk n p.2.resources p.2.duration p.2.demands) ++
      jobModesFrom data (n + 1) rest

/-- The original task records of a job's task list. -/
def jobTasksVals (data : ProblemData) (jt : List Nat) : List Task :=
  jt.map (fun t => (data.tasks.get? t).getD ⟨0, false⟩)

/-- The new job record's task list (all lookups succeed, so the default is
never hit). -/
def jobNewIdx (jt : List Nat) : List Nat :=
  jt.map (fun t => (dfind (revPairs 0 jt) t).getD 0)

/-- Pointer validity of a constraints container relative to a store. -/
def ptrsOKb (σ : Store) (c : Constraints) : Bool :=
  allowed_constraints.all (fun k =>
    (getKind c k).all (fun p => decide (p < σ.length))) &&
  c.mode_dependencies.all (fun p => decide (p < σ.length))

/-- The conditions under which the mode-dependency loop cannot raise for a
given job task set: each well-formed dependency has an in-range driving
mode, and, when retained, dependent modes owned by tasks of the job. -/
def mdOKb (σ : Store) (data : ProblemData) (jt : List Nat) : Bool :=
  (derefsD σ data.constraints.mode_dependencies).all (fun c =>
    match c.mode1, c.modes2 with
    | some m1, some ms =>
      decide (m1 < data.modes.length) &&
      (match data.modes.get? m1 with
       | some mo =>
         !(decide (mo.task ∈ jt)) ||
           ms.all (fun g =>
             match data.modes.get? g with
             | some mo2 => decide (mo2.task ∈ jt)
             | none => false)
       | none => true)
    | _, _ => true)

/-- The store before extracting job `j` in the orchestrator's run: the
store threading is independent of the solver, so it can be computed. -/
def storeTrace (data : ProblemData) (σ : Store) : Nat → Option Store
  | 0 => some σ
  | j + 1 => do
    let σ' ← storeTrace data σ j
    let r ← filter_problem_data_per_job σ' data j
    some r.store

/-- The subproblem instance the orchestrator submits for job `j`. -/
def subproblemAt (data : ProblemData) (σ : Store) (j : Nat) :
    Option ProblemData := do
  let σ' ← storeTrace data σ j
  let r ← filter_problem_data_per_job σ' data j
  some r.new_data

/-- The external-solver contract the spec assumes (section 4.3): one entry
per local task, and each entry's chosen mode owned by its task. -/
abbrev SolValid (P : ProblemData) (res : SolRes) : Prop :=
  res.tasks.length = P.tasks.length ∧
    ∀ q ∈ enumF 0 res.tasks, (P.modes.get? q.2.mode).map Mode.task = some q.1

/-- The solver satisfies the contract on every subproblem the orchestrator
actually submits. -/
def solverOKb (solve : ProblemData → SolRes) (data : ProblemData)
    (σ : Store) : Bool :=
  (rangeFrom 0 data.jobs.length).all (fun j =>
    match subproblemAt data σ j with
    | some P => decide (SolValid P (solve P))
    | none => true)

/-- A schedule entry belongs to global task `t` when its chosen mode is
owned by `t`. -/
abbrev Owns (data : ProblemData) (td : TaskData) (t : Nat) : Prop :=
  (data.modes.get? td.mode).map Mode.task = some t

/-- Whether the schedule entry in slot `t` (if any) belongs to task `t`. -/
def slotOwnedB (data : ProblemData) (sched : List TaskData) (t : Nat) :
    Bool :=
  match sched.get? t with
  | some td => decide ((data.modes.get? td.mode).map Mode.task = some t)
  | none => true

/-- How many schedule entries belong to global task `t`. -/
def entriesForTask (data : ProblemData) (sched : List TaskData) (t : Nat) :
    Nat :=
  (sched.filter (fun td =>
    decide ((data.modes.get? td.mode).map Mode.task = some t))).length

/-- The concatenation of the task lists of the jobs with the given
indices, in order. -/
def tasksOfJobs (data : ProblemData) : List Nat → List Nat
  | [] => []
  | j :: js => (data.jobs.getD j ⟨[]⟩).tasks ++ tasksOfJobs data js

/-- Store extension: old cells keep their values. -/
def Extends (σ' σ : Store) : Prop :=
  σ.length ≤ σ'.length ∧ ∀ p, p < σ.length → σ'.get? p = σ.get? p

/-- A store of five constraint objects exercising every branch: a
retained two-task constraint, a cross-job one, a malformed one, a
retained mode dependency and a dropped one. -/
def cστ : Store :=
  [⟨some 0, some 1, none, none, 7⟩,
   ⟨some 1, some 2, none, none, 8⟩,
   ⟨none, some 0, none, none, 9⟩,
   ⟨none, none, some 0, some [1], 10⟩,
   ⟨none, none, some 2, some [2], 11⟩]

/-- A two-job instance (tasks 0 and 1 in job 0, task 2 in job 1) with four
modes and the five constraints of `cστ`. -/
def cdata : ProblemData :=
  ⟨[⟨[0, 1]⟩, ⟨[2]⟩],
   [⟨0, true⟩, ⟨0, false⟩, ⟨1, false⟩],
   [0, 1],
   [⟨0, [0], 3, [1]⟩, ⟨1, [1], 4, [1]⟩, ⟨2, [0], 5, [1]⟩, ⟨1, [0], 6, [1]⟩],
   { end_before_start := [0, 1], consecutive := [2], mode_dependencies := [3, 4] }⟩

/-- A two-job instance whose job 0 owns task 1 and whose job 1 owns task
0: the jobs' task lists are not in ascending global order. -/
def cdataA : ProblemData :=
  ⟨[⟨[1]⟩, ⟨[0]⟩],
   [⟨1, false⟩, ⟨0, false⟩],
   [0],
   [⟨0, [0], 2, [1]⟩, ⟨1, [0], 3, [1]⟩],
   {}⟩

/-- A malformed two-job instance in which both jobs list task 0 and task 1
belongs to no job: the entry count matches the task count although task 1
is never scheduled. -/
def cdataB : ProblemData :=
  ⟨[⟨[0]⟩, ⟨[0]⟩],
   [⟨0, false⟩, ⟨1, false⟩],
   [0],
   [⟨0, [0], 2, [1]⟩],
   {}⟩

/-- A store holding one mode dependency whose driving mode belongs to job
0 but whose dependent mode belongs to job 1. -/
def cσC : Store := [⟨none, none, some 0, some [1], 0⟩]

/-- A two-job instance on which the mode dependency of `cσC` makes the
extraction of job 0 raise a KeyError. -/
def cdataC : ProblemData :=
  ⟨[⟨[0]⟩, ⟨[1]⟩],
   [⟨0, false⟩, ⟨1, false⟩],
   [0],
   [⟨0, [0], 2, [1]⟩, ⟨1, [0], 3, [1]⟩],
   { mode_dependencies := [0] }⟩

/-- A plain two-job instance (one task per job, durations 3 and 5) for the
stitching arithmetic. -/
def cdataD : ProblemData :=
  ⟨[⟨[0]⟩, ⟨[1]⟩],
   [⟨0, false⟩, ⟨1, false⟩],
   [0],
   [⟨0, [0], 3, [1]⟩, ⟨1, [0], 5, [1]⟩],
   {}⟩

/-- The inert default result used only to name computed runs below. -/
def emptyFR : FilterResult := ⟨[], ⟨[], [], [], [], {}⟩, [], [], [], [], []⟩

/-- The extraction of job 0 from `cdata` (a successful concrete run). -/
def R0 : FilterResult :=
  (filter_problem_data_per_job cστ cdata 0).getD emptyFR

/-- The extraction of job 0 from `cdataD`. -/
def D0 : FilterResult :=
  (filter_problem_data_per_job [] cdataD 0).getD emptyFR

/-- The extraction of job 1 from `cdataD`, after job 0's extraction. -/
def D1 : FilterResult :=
  (filter_problem_data_per_job D0.store cdataD 1).getD emptyFR

/-- The global schedule entries the orchestrator builds for job 0 of
`cdataD` at offset 0. -/
def E0 : List TaskData :=
  (mapO (fun otd => (dfind D0.modes_translation otd.mode).map (fun gm =>
    TaskData.mk gm (otd.start + 0) (otd.end_ + 0) otd.resources))
    (greedySolve D0.new_data).tasks).getD []

/-- The global schedule entries the orchestrator builds for job 1 of
`cdataD`, at the offset accumulated after job 0. -/
def E1 : List TaskData :=
  (mapO (fun otd => (dfind D1.modes_translation otd.mode).map (fun gm =>
    TaskData.mk gm (otd.start + (0 + (greedySolve D0.new_data).makespan + 12))
      (otd.end_ + (0 + (greedySolve D0.new_data).makespan + 12))
      otd.resources))
    (greedySolve D1.new_data).tasks).getD []

section Lemmas

/-- If the later dict binds the key, concatenation returns that binding. -/
theorem dfind_append_some (d1 d2 : Dict) (k v : Nat)
    (h : dfind d2 k = some v) : dfind (d1 ++ d2) k = some v := by
  induction d1 with
  | nil => simpa using h
  | cons p d1 ih => simp [dfind, ih]

/-- If the later dict does not bind the key, concatenation defers to the
earlier dict. -/
theorem dfind_append_none (d1 d2 : Dict) (k : Nat)
    (h : dfind d2 k = none) : dfind (d1 ++ d2) k = dfind d1 k := by
  induction d1 with
  | nil => simpa using h
  | cons p d1 ih => simp [dfind, ih]

/-- Keys below the starting index are absent from an enumeration dict. -/
theorem dfind_enumF_lt (l : List Nat) (n k : Nat) (h : k < n) :
    dfind (enumF n l) k = none := by
  induction l generalizing n with
  | nil => rfl
  | cons g l ih =>
    have hk : k < n + 1 := Nat.lt_succ_of_lt h
    simp only [enumF, dfind, ih (n + 1) hk]
    have : ¬ n = k := by omega
    simp [this]

/-- Lookup in an enumeration dict is list indexing. -/
theorem dfind_enumF (l : List Nat) (n k : Nat) :
    dfind (enumF n l) (n + k) = l.get? k := by
  induction l generalizing n k with
  | nil => rfl
  | cons g l ih =>
    cases k with
    | zero =>
      have hlt := dfind_enumF_lt l (n + 1) (n + 0) (by omega)
      simp only [enumF, dfind, hlt]
      simp
    | succ k =>
      simp only [enumF, dfind]
      have hs : n + (k + 1) = (n + 1) + k := by omega
      rw [hs, ih (n + 1) k]
      have hne : ¬ n = n + 1 + k := by omega
      cases hg : l.get? k with
      | some v => simp only [List.get?, hg]
      | none => simp only [List.get?, if_neg hne, hg]

/-- Lookup in an enumeration dict starting at 0. -/
theorem dfind_enumF0 (l : List Nat) (k : Nat) :
    dfind (enumF 0 l) k = l.get? k := by
  have := dfind_enumF l 0 k
  simpa using this

/-- A key that is not in the list is absent from the reversed dict. -/
theorem dfind_revPairs_not_mem (l : List Nat) (n g : Nat) (h : g ∉ l) :
    dfind (revPairs n l) g = none := by
  induction l generalizing n with
  | nil => rfl
  | cons g' l ih =>
    have h1 : g ∉ l := fun hm => h (List.mem_cons_of_mem _ hm)
    have h2 : ¬ g' = g := fun he => h (he ▸ List.mem_cons_self _ _)
    simp [revPairs, dfind, ih (n + 1) h1, h2]

/-- A key that is in the list has a binding in the reversed dict. -/
theorem dfind_revPairs_isSome (l : List Nat) (n g : Nat) (h : g ∈ l) :
    (dfind (revPairs n l) g).isSome := by
  induction l generalizing n with
  | nil => cases h
  | cons g' l ih =>
    simp only [revPairs, dfind]
    cases hr : dfind (revPairs (n + 1) l) g with
    | some v => simp
    | none =>
      rcases List.mem_cons.mp h with he | hm
      · simp [he.symm]
      · have := ih (n + 1) hm
        rw [hr] at this
        simp at this

/-- Any binding in the reversed dict comes from an actual list position. -/
theorem dfind_revPairs_sound (l : List Nat) (n g v : Nat)
    (h : dfind (revPairs n l) g = some v) :
    ∃ k, v = n + k ∧ l.get? k = some g := by
  induction l generalizing n with
  | nil => cases h
  | cons g' l ih =>
    simp only [revPairs, dfind] at h
    cases hr : dfind (revPairs (n + 1) l) g with
    | some w =>
      rw [hr] at h
      simp at h
      subst h
      obtain ⟨k, hk, hg⟩ := ih (n + 1) hr
      exact ⟨k + 1, by omega, by simpa using hg⟩
    | none =>
      rw [hr] at h
      by_cases he : g' = g
      · simp only [he, if_pos rfl] at h
        injection h with h
        exact ⟨0, by omega, by simp [he]⟩
      · simp [he] at h

/-- On a duplicate-free list the reversed dict inverts list indexing. -/
theorem dfind_revPairs_nodup (l : List Nat) (n g k : Nat) (hnd : l.Nodup)
    (h : l.get? k = some g) :
    dfind (revPairs n l) g = some (n + k) := by
  induction l generalizing n k with
  | nil => cases h
  | cons g' l ih =>
    have hnd' : l.Nodup := (List.nodup_cons.mp hnd).2
    have hg' : g' ∉ l := (List.nodup_cons.mp hnd).1
    cases k with
    | zero =>
      simp only [List.get?] at h
      injection h with h
      subst h
      simp [revPairs, dfind, dfind_revPairs_not_mem l (n + 1) g' hg']
    | succ k =>
      simp only [List.get?] at h
      have hrec := ih (n + 1) k hnd' h
      simp only [revPairs, dfind, hrec]
      have : n + (k + 1) = n + 1 + k := by omega
      simp [this]

end Lemmas

theorem enumF_length (n : Nat) (l : List α) : (enumF n l).length = l.length := by
  induction l generalizing n with
  | nil => rfl
  | cons a l ih => simp [enumF, ih]

theorem enumF_append (n : Nat) (l1 l2 : List α) :
    enumF n (l1 ++ l2) = enumF n l1 ++ enumF (n + l1.length) l2 := by
  induction l1 generalizing n with
  | nil => simp [enumF]
  | cons a l1 ih =>
    have h : n + (a :: l1).length = (n + 1) + l1.length := by
      simp only [List.length_cons]
      omega
    rw [h]
    show (n, a) :: enumF (n + 1) (l1 ++ l2) =
      ((n, a) :: enumF (n + 1) l1) ++ enumF ((n + 1) + l1.length) l2
    rw [List.cons_append, ih (n + 1)]

theorem revPairs_append (n : Nat) (l1 l2 : List Nat) :
    revPairs n (l1 ++ l2) = revPairs n l1 ++ revPairs (n + l1.length) l2 := by
  induction l1 generalizing n with
  | nil => simp [revPairs]
  | cons a l1 ih =>
    have h : n + (a :: l1).length = (n + 1) + l1.length := by
      simp only [List.length_cons]
      omega
    rw [h]
    show (a, n) :: revPairs (n + 1) (l1 ++ l2) =
      ((a, n) :: revPairs (n + 1) l1) ++ revPairs ((n + 1) + l1.length) l2
    rw [List.cons_append, ih (n + 1)]

theorem enumF_get? (n k : Nat) (l : List α) :
    (enumF n l).get? k = (l.get? k).map (fun a => (n + k, a)) := by
  induction l generalizing n k with
  | nil => simp [enumF]
  | cons a l ih =>
    cases k with
    | zero => simp [enumF, List.get?]
    | succ k =>
      show (enumF (n + 1) l).get? k = _
      rw [ih (n + 1) k]
      have h : n + 1 + k = n + (k + 1) := by omega
      rw [h]
      rfl

theorem mem_enumF (n : Nat) (l : List α) (p : Nat × α) (h : p ∈ enumF n l) :
    ∃ k, p.1 = n + k ∧ l.get? k = some p.2 := by
  induction l generalizing n with
  | nil => cases h
  | cons a l ih =>
    rcases List.mem_cons.mp h with he | hm
    · exact ⟨0, by simp [he], by simp [he, List.get?]⟩
    · obtain ⟨k, hk1, hk2⟩ := ih (n + 1) hm
      exact ⟨k + 1, by omega, by simpa using hk2⟩

theorem get?_mem_enumF (n k : Nat) (l : List α) (a : α)
    (h : l.get? k = some a) : (n + k, a) ∈ enumF n l := by
  have he := enumF_get? n k l
  rw [h] at he
  exact List.get?_mem he

theorem rangeFrom_length (s n : Nat) : (rangeFrom s n).length = n := by
  induction n generalizing s with
  | zero => rfl
  | succ n ih => simp [rangeFrom, ih]

theorem rangeFrom_get? (s n k : Nat) :
    (rangeFrom s n).get? k = if k < n then some (s + k) else none := by
  induction n generalizing s k with
  | zero => simp [rangeFrom]
  | succ n ih =>
    cases k with
    | zero => simp [rangeFrom, List.get?]
    | succ k =>
      show (rangeFrom (s + 1) n).get? k = _
      rw [ih (s + 1) k]
      by_cases h : k < n
      · rw [if_pos h, if_pos (by omega : k + 1 < n + 1)]
        congr 1
        omega
      · rw [if_neg h, if_neg (by omega : ¬ k + 1 < n + 1)]

theorem mem_rangeFrom (s n j : Nat) :
    j ∈ rangeFrom s n ↔ s ≤ j ∧ j < s + n := by
  induction n generalizing s with
  | zero =>
    constructor
    · intro h
      cases h
    · intro h
      exact absurd h.2 (by omega)
  | succ n ih =>
    simp only [rangeFrom, List.mem_cons, ih (s + 1)]
    omega

theorem mapO_cons (f : α → Option β) (a : α) (l : List α) :
    mapO f (a :: l) =
      (f a).bind (fun b => (mapO f l).bind (fun bs => some (b :: bs))) := rfl

theorem mapO_length (f : α → Option β) (l : List α) (l' : List β)
    (h : mapO f l = some l') : l'.length = l.length := by
  induction l generalizing l' with
  | nil =>
    simp [mapO] at h
    subst h
    rfl
  | cons a l ih =>
    rw [mapO_cons] at h
    cases hf : f a with
    | none => simp [hf] at h
    | some b =>
      rw [hf] at h
      cases hm : mapO f l with
      | none => simp [hm] at h
      | some bs =>
        rw [hm] at h
        have h' : b :: bs = l' := by
          have hs : some (b :: bs) = some l' := h
          injection hs
        rw [← h']
        simp [ih bs hm]

theorem mapO_get? (f : α → Option β) (l : List α) (l' : List β)
    (h : mapO f l = some l') (k : Nat) : l'.get? k = (l.get? k).bind f := by
  induction l generalizing l' k with
  | nil =>
    simp [mapO] at h
    subst h
    simp
  | cons a l ih =>
    rw [mapO_cons] at h
    cases hf : f a with
    | none => simp [hf] at h
    | some b =>
      rw [hf] at h
      cases hm : mapO f l with
      | none => simp [hm] at h
      | some bs =>
        rw [hm] at h
        have h' : b :: bs = l' := by
          have hs : some (b :: bs) = some l' := h
          injection hs
        rw [← h']
        cases k with
        | zero => simp [List.get?, hf]
        | succ k =>
          show bs.get? k = (l.get? k).bind f
          exact ih bs hm k

theorem mapO_isSome (f : α → Option β) (d : β) (l : List α)
    (h : ∀ a ∈ l, (f a).isSome) :
    mapO f l = some (l.map (fun a => (f a).getD d)) := by
  induction l with
  | nil => rfl
  | cons a l ih =>
    have ha : (f a).isSome := h a (List.mem_cons_self a l)
    obtain ⟨b, hb⟩ := Option.isSome_iff_exists.mp ha
    rw [mapO_cons, hb, ih (fun x hx => h x (List.mem_cons_of_mem a hx))]
    simp [hb]

theorem mapO_mem (f : α → Option β) (l : List α) (l' : List β)
    (h : mapO f l = some l') (b : β) (hb : b ∈ l') : ∃ a ∈ l, f a = some b := by
  induction l generalizing l' with
  | nil =>
    simp [mapO] at h
    subst h
    cases hb
  | cons a l ih =>
    rw [mapO_cons] at h
    cases hf : f a with
    | none => simp [hf] at h
    | some c =>
      rw [hf] at h
      cases hm : mapO f l with
      | none => simp [hm] at h
      | some bs =>
        rw [hm] at h
        have h' : c :: bs = l' := by
          have hs : some (c :: bs) = some l' := h
          injection hs
        rw [← h'] at hb
        rcases List.mem_cons.mp hb with he | hmm
        · exact ⟨a, List.mem_cons_self a l, by rw [he]; exact hf⟩
        · obtain ⟨x, hx, hfx⟩ := ih bs hm hmm
          exact ⟨x, List.mem_cons_of_mem a hx, hfx⟩

theorem set_append_length (σ : List α) (a b : α) :
    (σ ++ [a]).set σ.length b = σ ++ [b] := by
  induction σ with
  | nil => rfl
  | cons c σ ih =>
    show c :: (σ ++ [a]).set σ.length b = c :: (σ ++ [b])
    rw [ih]

theorem extends_refl (σ : Store) : Extends σ σ :=
  ⟨Nat.le_refl _, fun _ _ => rfl⟩

theorem extends_trans {σ3 σ2 σ1 : Store}
    (h32 : Extends σ3 σ2) (h21 : Extends σ2 σ1) : Extends σ3 σ1 :=
  ⟨Nat.le_trans h21.1 h32.1,
   fun p hp => (h32.2 p (Nat.lt_of_lt_of_le hp h21.1)).trans (h21.2 p hp)⟩

theorem extends_append (σ τ : Store) : Extends (σ ++ τ) σ :=
  ⟨by simp, fun p hp => List.get?_append hp⟩

theorem derefsD_nil (σ : Store) : derefsD σ [] = [] := rfl

theorem derefsD_cons (σ : Store) (p : Ptr) (ps : List Ptr) :
    derefsD σ (p :: ps) = (σ.get? p).getD defaultCons :: derefsD σ ps := rfl

theorem derefsD_append (σ : Store) (ps qs : List Ptr) :
    derefsD σ (ps ++ qs) = derefsD σ ps ++ derefsD σ qs := by
  simp [derefsD]

theorem derefsD_ext {σ' σ : Store} {ps : List Ptr} (he : Extends σ' σ)
    (hb : ∀ p ∈ ps, p < σ.length) : derefsD σ' ps = derefsD σ ps := by
  induction ps with
  | nil => rfl
  | cons p ps ih =>
    rw [derefsD_cons, derefsD_cons,
        he.2 p (hb p (List.mem_cons_self p ps)),
        ih (fun q hq => hb q (List.mem_cons_of_mem p hq))]

theorem derefsD_block (σ τ : Store) (vals : List Cons) :
    derefsD (σ ++ (vals ++ τ)) (rangeFrom σ.length vals.length) = vals := by
  induction vals generalizing σ with
  | nil => rfl
  | cons v vals ih =>
    simp only [List.length_cons]
    rw [show rangeFrom σ.length (vals.length + 1) =
          σ.length :: rangeFrom (σ.length + 1) vals.length from rfl]
    rw [derefsD_cons]
    congr 1
    · rw [List.get?_append_right (Nat.le_refl _)]
      simp
    · have h2 : σ ++ (v :: vals ++ τ) = (σ ++ [v]) ++ (vals ++ τ) := by simp
      rw [h2, (by simp : σ.length + 1 = (σ ++ [v]).length)]
      exact ih (σ ++ [v])

theorem modeLoop_cons_pos (nt ot om : Nat) (m : Mode)
    (rest : List (Nat × Mode)) (s : LoopSt) (h : m.task = ot) :
    modeLoop nt ot s ((om, m) :: rest) =
      modeLoop nt ot
        { s with
          modes_translation :=
            s.modes_translation ++ [(s.new_mode_index, om)],
          modes_translation_reversed :=
            s.modes_translation_reversed ++ [(om, s.new_mode_index)],
          new_mode_index := s.new_mode_index + 1,
          modes_for_problem_data := s.modes_for_problem_data ++
            [⟨nt, m.resources, m.duration, m.demands⟩] } rest := by
  simp [modeLoop, h]

theorem modeLoop_cons_neg (nt ot om : Nat) (m : Mode)
    (rest : List (Nat × Mode)) (s : LoopSt) (h : ¬ m.task = ot) :
    modeLoop nt ot s ((om, m) :: rest) = modeLoop nt ot s rest := by
  simp [modeLoop, h]

theorem modeLoop_tt (nt ot : Nat) (ms : List (Nat × Mode)) : ∀ s : LoopSt,
    (modeLoop nt ot s ms).task_translation = s.task_translation := by
  induction ms with
  | nil => intro s; rfl
  | cons pm rest ih =>
    intro s
    obtain ⟨om, m⟩ := pm
    by_cases h : m.task = ot
    · rw [modeLoop_cons_pos nt ot om m rest s h, ih]
    · rw [modeLoop_cons_neg nt ot om m rest s h, ih]

theorem modeLoop_ttr (nt ot : Nat) (ms : List (Nat × Mode)) : ∀ s : LoopSt,
    (modeLoop nt ot s ms).task_translation_reversed =
      s.task_translation_reversed := by
  induction ms with
  | nil => intro s; rfl
  | cons pm rest ih =>
    intro s
    obtain ⟨om, m⟩ := pm
    by_cases h : m.task = ot
    · rw [modeLoop_cons_pos nt ot om m rest s h, ih]
    · rw [modeLoop_cons_neg nt ot om m rest s h, ih]

theorem modeLoop_tasks (nt ot : Nat) (ms : List (Nat × Mode)) : ∀ s : LoopSt,
    (modeLoop nt ot s ms).tasks = s.tasks := by
  induction ms with
  | nil => intro s; rfl
  | cons pm rest ih =>
    intro s
    obtain ⟨om, m⟩ := pm
    by_cases h : m.task = ot
    · rw [modeLoop_cons_pos nt ot om m rest s h, ih]
    · rw [modeLoop_cons_neg nt ot om m rest s h, ih]

theorem modeLoop_nmi (nt ot : Nat) (ms : List (Nat × Mode)) : ∀ s : LoopSt,
    (modeLoop nt ot s ms).new_mode_index =
      s.new_mode_index + (ms.filter (fun p => p.2.task = ot)).length := by
  induction ms with
  | nil => intro s; simp [modeLoop]
  | cons pm rest ih =>
    intro s
    obtain ⟨om, m⟩ := pm
    by_cases h : m.task = ot
    · rw [modeLoop_cons_pos nt ot om m rest s h, ih]
      simp [List.filter_cons, h]
      omega
    · rw [modeLoop_cons_neg nt ot om m rest s h, ih]
      simp [List.filter_cons, h]

theorem modeLoop_mt (nt ot : Nat) (ms : List (Nat × Mode)) : ∀ s : LoopSt,
    (modeLoop nt ot s ms).modes_translation =
      s.modes_translation ++
        enumF s.new_mode_index
          ((ms.filter (fun p => p.2.task = ot)).map Prod.fst) := by
  induction ms with
  | nil => intro s; simp [modeLoop, enumF]
  | cons pm rest ih =>
    intro s
    obtain ⟨om, m⟩ := pm
    by_cases h : m.task = ot
    · rw [modeLoop_cons_pos nt ot om m rest s h, ih]
      simp [List.filter_cons, h, enumF]
    · rw [modeLoop_cons_neg nt ot om m rest s h, ih]
      simp [List.filter_cons, h]

theorem modeLoop_mtr (nt ot : Nat) (ms : List (Nat × Mode)) : ∀ s : LoopSt,
    (modeLoop nt ot s ms).modes_translation_reversed =
      s.modes_translation_reversed ++
        revPairs s.new_mode_index
          ((ms.filter (fun p => p.2.task = ot)).map Prod.fst) := by
  induction ms with
  | nil => intro s; simp [modeLoop, revPairs]
  | cons pm rest ih =>
    intro s
    obtain ⟨om, m⟩ := pm
    by_cases h : m.task = ot
    · rw [modeLoop_cons_pos nt ot om m rest s h, ih]
      simp [List.filter_cons, h, revPairs]
    · rw [modeLoop_cons_neg nt ot om m rest s h, ih]
      simp [List.filter_cons, h]

theorem modeLoop_mpd (nt ot : Nat) (ms : List (Nat × Mode)) : ∀ s : LoopSt,
    (modeLoop nt ot s ms).modes_for_problem_data =
      s.modes_for_problem_data ++
        (ms.filter (fun p => p.2.task = ot)).map
          (fun p => Mode.mk nt p.2.resources p.2.duration p.2.demands) := by
  induction ms with
  | nil => intro s; simp [modeLoop]
  | cons pm rest ih =>
    intro s
    obtain ⟨om, m⟩ := pm
    by_cases h : m.task = ot
    · rw [modeLoop_cons_pos nt ot om m rest s h, ih]
      simp [List.filter_cons, h]
    · rw [modeLoop_cons_neg nt ot om m rest s h, ih]
      simp [List.filter_cons, h]

theorem taskLoop_cons (data : ProblemData) (s : LoopSt) (n ot : Nat)
    (rest : List Nat) (task : Task) (htask : data.tasks.get? ot = some task) :
    taskLoop data s n (ot :: rest) =
      taskLoop data
        (modeLoop n ot
          { s with
            task_translation := s.task_translation ++ [(n, ot)],
            task_translation_reversed :=
              s.task_translation_reversed ++ [(ot, n)],
            tasks := s.tasks ++ [task] } (enumF 0 data.modes))
        (n + 1) rest := by
  have h2 : data.tasks[ot]? = some task := by
    rw [← List.get?_eq_getElem?]
    exact htask
  simp [taskLoop, h2]

theorem taskLoop_spec (data : ProblemData) (jt : List Nat) : ∀ (s : LoopSt) (n : Nat),
    (∀ t ∈ jt, t < data.tasks.length) →
    ∃ st, taskLoop data s n jt = some st ∧
      st.task_translation = s.task_translation ++ enumF n jt ∧
      st.task_translation_reversed =
        s.task_translation_reversed ++ revPairs n jt ∧
      st.modes_translation =
        s.modes_translation ++ enumF s.new_mode_index (jobGModes data jt) ∧
      st.modes_translation_reversed =
        s.modes_translation_reversed ++
          revPairs s.new_mode_index (jobGModes data jt) ∧
      st.new_mode_index = s.new_mode_index + (jobGModes data jt).length ∧
      st.modes_for_problem_data =
        s.modes_for_problem_data ++ jobModesFrom data n jt ∧
      st.tasks = s.tasks ++ jobTasksVals data jt := by
  induction jt with
  | nil =>
    intro s n _
    exact ⟨s, rfl, by simp [enumF, revPairs, jobGModes, jobModesFrom, jobTasksVals]⟩
  | cons ot rest ih =>
    intro s n h
    have hot : ot < data.tasks.length := h ot (List.mem_cons_self _ _)
    have htask : data.tasks.get? ot = some (data.tasks.get ⟨ot, hot⟩) :=
      List.get?_eq_get hot
    obtain ⟨st, heq, h1, h2, h3, h4, h5, h6, h7⟩ :=
      ih (modeLoop n ot
            { s with
              task_translation := s.task_translation ++ [(n, ot)],
              task_translation_reversed :=
                s.task_translation_reversed ++ [(ot, n)],
              tasks := s.tasks ++ [data.tasks.get ⟨ot, hot⟩] }
            (enumF 0 data.modes))
        (n + 1) (fun t ht => h t (List.mem_cons_of_mem _ ht))
    refine ⟨st, ?_, ?_, ?_, ?_, ?_, ?_, ?_, ?_⟩
    · rw [taskLoop_cons data s n ot rest _ htask]
      exact heq
    · rw [h1, modeLoop_tt]
      simp [enumF]
    · rw [h2, modeLoop_ttr]
      simp [revPairs]
    · rw [h3, modeLoop_mt, modeLoop_nmi]
      show _ ++ enumF _ (taskModeIdx data ot) ++ _ = _
      rw [show jobGModes data (ot :: rest) =
            taskModeIdx data ot ++ jobGModes data rest from rfl,
          enumF_append]
      simp [taskModeIdx, taskModePairs]
    · rw [h4, modeLoop_mtr, modeLoop_nmi]
      show _ ++ revPairs _ (taskModeIdx data ot) ++ _ = _
      rw [show jobGModes data (ot :: rest) =
            taskModeIdx data ot ++ jobGModes data rest from rfl,
          revPairs_append]
      simp [taskModeIdx, taskModePairs]
    · rw [h5, modeLoop_nmi]
      rw [show jobGModes data (ot :: rest) =
            taskModeIdx data ot ++ jobGModes data rest from rfl]
      simp [taskModeIdx, taskModePairs]
      omega
    · rw [h6, modeLoop_mpd]
      rw [show jobModesFrom data n (ot :: rest) =
            (taskModePairs data ot).map
                (fun p => Mode.mk n p.2.resources p.2.duration p.2.demands) ++
              jobModesFrom data (n + 1) rest from rfl]
      simp [taskModePairs]
    · rw [h7, modeLoop_tasks]
      have hjv : jobTasksVals data (ot :: rest) =
          (data.tasks.get ⟨ot, hot⟩) :: jobTasksVals data rest := by
        show ((data.tasks.get? ot).getD ⟨0, false⟩) :: jobTasksVals data rest = _
        rw [htask]
        rfl
      rw [hjv]
      simp

theorem deepcopyList_spec (σ : Store) (ps : List Ptr)
    (hb : ∀ p ∈ ps, p < σ.length) :
    ∃ σ' qs, deepcopyList σ ps = some (σ', qs) ∧ Extends σ' σ ∧
      (∀ p ∈ qs, p < σ'.length) ∧ derefsD σ' qs = derefsD σ ps := by
  have hs : ∀ p ∈ ps, ((fun p => σ.get? p) p).isSome := by
    intro p hp
    show (σ.get? p).isSome = true
    rw [List.get?_eq_get (hb p hp)]
    rfl
  have hmap := mapO_isSome (fun p => σ.get? p) defaultCons ps hs
  refine ⟨σ ++ derefsD σ ps, rangeFrom σ.length (derefsD σ ps).length,
    ?_, extends_append σ _, ?_, ?_⟩
  · unfold deepcopyList
    rw [hmap]
    rfl
  · intro p hp
    rw [List.length_append]
    exact ((mem_rangeFrom _ _ _).mp hp).2
  · have hblk := derefsD_block σ [] (derefsD σ ps)
    simpa using hblk

theorem deepcopyConstraints_spec (σ : Store) (c : Constraints)
    (hb : ∀ k : CKind, ∀ p ∈ getKind c k, p < σ.length)
    (hbm : ∀ p ∈ c.mode_dependencies, p < σ.length) :
    ∃ σ' dc, deepcopyConstraints σ c = some (σ', dc) ∧ Extends σ' σ ∧
      (∀ k : CKind, derefsD σ' (getKind dc k) = derefsD σ (getKind c k)) ∧
      (∀ k : CKind, ∀ p ∈ getKind dc k, p < σ'.length) ∧
      derefsD σ' dc.mode_dependencies = derefsD σ c.mode_dependencies ∧
      (∀ p ∈ dc.mode_dependencies, p < σ'.length) := by
  obtain ⟨σ1, q1, he1, hx1, hq1, hd1⟩ :=
    deepcopyList_spec σ c.start_before_end (hb .start_before_end)
  have hX1 : Extends σ1 σ := hx1
  obtain ⟨σ2, q2, he2, hx2, hq2, hd2⟩ :=
    deepcopyList_spec σ1 c.start_before_start
      (fun p hp => Nat.lt_of_lt_of_le (hb .start_before_start p hp) hX1.1)
  have hX2 : Extends σ2 σ := extends_trans hx2 hX1
  obtain ⟨σ3, q3, he3, hx3, hq3, hd3⟩ :=
    deepcopyList_spec σ2 c.end_before_start
      (fun p hp => Nat.lt_of_lt_of_le (hb .end_before_start p hp) hX2.1)
  have hX3 : Extends σ3 σ := extends_trans hx3 hX2
  obtain ⟨σ4, q4, he4, hx4, hq4, hd4⟩ :=
    deepcopyList_spec σ3 c.end_before_end
      (fun p hp => Nat.lt_of_lt_of_le (hb .end_before_end p hp) hX3.1)
  have hX4 : Extends σ4 σ := extends_trans hx4 hX3
  obtain ⟨σ5, q5, he5, hx5, hq5, hd5⟩ :=
    deepcopyList_spec σ4 c.consecutive
      (fun p hp => Nat.lt_of_lt_of_le (hb .consecutive p hp) hX4.1)
  have hX5 : Extends σ5 σ := extends_trans hx5 hX4
  obtain ⟨σ6, q6, he6, hx6, hq6, hd6⟩ :=
    deepcopyList_spec σ5 c.identical_resources
      (fun p hp => Nat.lt_of_lt_of_le (hb .identical_resources p hp) hX5.1)
  have hX6 : Extends σ6 σ := extends_trans hx6 hX5
  obtain ⟨σ7, q7, he7, hx7, hq7, hd7⟩ :=
    deepcopyList_spec σ6 c.different_resources
      (fun p hp => Nat.lt_of_lt_of_le (hb .different_resources p hp) hX6.1)
  have hX7 : Extends σ7 σ := extends_trans hx7 hX6
  obtain ⟨σ8, q8, he8, hx8, hq8, hd8⟩ :=
    deepcopyList_spec σ7 c.same_sequence
      (fun p hp => Nat.lt_of_lt_of_le (hb .same_sequence p hp) hX7.1)
  have hX8 : Extends σ8 σ := extends_trans hx8 hX7
  obtain ⟨σ9, q9, he9, hx9, hq9, hd9⟩ :=
    deepcopyList_spec σ8 c.setup_times
      (fun p hp => Nat.lt_of_lt_of_le (hb .setup_times p hp) hX8.1)
  have hX9 : Extends σ9 σ := extends_trans hx9 hX8
  obtain ⟨σ10, q10, he10, hx10, hq10, hd10⟩ :=
    deepcopyList_spec σ9 c.mode_dependencies
      (fun p hp => Nat.lt_of_lt_of_le (hbm p hp) hX9.1)
  have hX10 : Extends σ10 σ := extends_trans hx10 hX9
  have hS10 : Extends σ10 σ10 := extends_refl σ10
  have hS9 : Extends σ10 σ9 := hx10
  have hS8 : Extends σ10 σ8 := extends_trans hS9 hx9
  have hS7 : Extends σ10 σ7 := extends_trans hS8 hx8
  have hS6 : Extends σ10 σ6 := extends_trans hS7 hx7
  have hS5 : Extends σ10 σ5 := extends_trans hS6 hx6
  have hS4 : Extends σ10 σ4 := extends_trans hS5 hx5
  have hS3 : Extends σ10 σ3 := extends_trans hS4 hx4
  have hS2 : Extends σ10 σ2 := extends_trans hS3 hx3
  have hS1 : Extends σ10 σ1 := extends_trans hS2 hx2
  have hv1 : derefsD σ10 q1 = derefsD σ (getKind c .start_before_end) := by
    rw [derefsD_ext hS1 hq1, hd1]
    rfl
  have hv2 : derefsD σ10 q2 = derefsD σ (getKind c .start_before_start) := by
    rw [derefsD_ext hS2 hq2, hd2,
        @derefsD_ext σ1 σ c.start_before_start hX1 (hb .start_before_start)]
    rfl
  have hv3 : derefsD σ10 q3 = derefsD σ (getKind c .end_before_start) := by
    rw [derefsD_ext hS3 hq3, hd3,
        @derefsD_ext σ2 σ c.end_before_start hX2 (hb .end_before_start)]
    rfl
  have hv4 : derefsD σ10 q4 = derefsD σ (getKind c .end_before_end) := by
    rw [derefsD_ext hS4 hq4, hd4,
        @derefsD_ext σ3 σ c.end_before_end hX3 (hb .end_before_end)]
    rfl
  have hv5 : derefsD σ10 q5 = derefsD σ (getKind c .consecutive) := by
    rw [derefsD_ext hS5 hq5, hd5,
        @derefsD_ext σ4 σ c.consecutive hX4 (hb .consecutive)]
    rfl
  have hv6 : derefsD σ10 q6 = derefsD σ (getKind c .identical_resources) := by
    rw [derefsD_ext hS6 hq6, hd6,
        @derefsD_ext σ5 σ c.identical_resources hX5 (hb .identical_resources)]
    rfl
  have hv7 : derefsD σ10 q7 = derefsD σ (getKind c .different_resources) := by
    rw [derefsD_ext hS7 hq7, hd7,
        @derefsD_ext σ6 σ c.different_resources hX6 (hb .different_resources)]
    rfl
  have hv8 : derefsD σ10 q8 = derefsD σ (getKind c .same_sequence) := by
    rw [derefsD_ext hS8 hq8, hd8,
        @derefsD_ext σ7 σ c.same_sequence hX7 (hb .same_sequence)]
    rfl
  have hv9 : derefsD σ10 q9 = derefsD σ (getKind c .setup_times) := by
    rw [derefsD_ext hS9 hq9, hd9,
        @derefsD_ext σ8 σ c.setup_times hX8 (hb .setup_times)]
    rfl
  have hv10 : derefsD σ10 q10 = derefsD σ c.mode_dependencies := by
    rw [derefsD_ext hS10 hq10, hd10, derefsD_ext hX9 hbm]
  have hw1 : ∀ p ∈ q1, p < σ10.length :=
    fun p hp => Nat.lt_of_lt_of_le (hq1 p hp) hS1.1
  have hw2 : ∀ p ∈ q2, p < σ10.length :=
    fun p hp => Nat.lt_of_lt_of_le (hq2 p hp) hS2.1
  have hw3 : ∀ p ∈ q3, p < σ10.length :=
    fun p hp => Nat.lt_of_lt_of_le (hq3 p hp) hS3.1
  have hw4 : ∀ p ∈ q4, p < σ10.length :=
    fun p hp => Nat.lt_of_lt_of_le (hq4 p hp) hS4.1
  have hw5 : ∀ p ∈ q5, p < σ10.length :=
    fun p hp => Nat.lt_of_lt_of_le (hq5 p hp) hS5.1
  have hw6 : ∀ p ∈ q6, p < σ10.length :=
    fun p hp => Nat.lt_of_lt_of_le (hq6 p hp) hS6.1
  have hw7 : ∀ p ∈ q7, p < σ10.length :=
    fun p hp => Nat.lt_of_lt_of_le (hq7 p hp) hS7.1
  have hw8 : ∀ p ∈ q8, p < σ10.length :=
    fun p hp => Nat.lt_of_lt_of_le (hq8 p hp) hS8.1
  have hw9 : ∀ p ∈ q9, p < σ10.length :=
    fun p hp => Nat.lt_of_lt_of_le (hq9 p hp) hS9.1
  have hw10 : ∀ p ∈ q10, p < σ10.length :=
    fun p hp => Nat.lt_of_lt_of_le (hq10 p hp) hS10.1
  refine ⟨σ10, ⟨q1, q2, q3, q4, q5, q6, q7, q8, q9, q10⟩, ?_, hX10, ?_, ?_, hv10, hw10⟩
  · simp only [deepcopyConstraints, he1, he2, he3, he4, he5, he6, he7, he8, he9,
      he10, Option.bind_eq_bind, Option.some_bind]
  · intro k
    cases k with
    | start_before_end => exact hv1
    | start_before_start => exact hv2
    | end_before_start => exact hv3
    | end_before_end => exact hv4
    | consecutive => exact hv5
    | identical_resources => exact hv6
    | different_resources => exact hv7
    | same_sequence => exact hv8
    | setup_times => exact hv9
  · intro k
    cases k with
    | start_before_end => exact hw1
    | start_before_start => exact hw2
    | end_before_start => exact hw3
    | end_before_end => exact hw4
    | consecutive => exact hw5
    | identical_resources => exact hw6
    | different_resources => exact hw7
    | same_sequence => exact hw8
    | setup_times => exact hw9


theorem ttSpec_cons (jt : List Nat) (ttr : Dict) (c : Cons) (cs : List Cons) :
    ttSpec jt ttr (c :: cs) =
      if keepTT jt c then transTT ttr c :: ttSpec jt ttr cs
      else ttSpec jt ttr cs := by
  unfold ttSpec
  rw [List.filter_cons]
  by_cases h : keepTT jt c
  · simp [h]
  · simp [h]

theorem warnTT_cons (kname : String) (c : Cons) (cs : List Cons) :
    warnTT kname (c :: cs) =
      if isMalfTT c then msgTT kname :: warnTT kname cs
      else warnTT kname cs := by
  unfold warnTT
  rw [List.filter_cons]
  by_cases h : isMalfTT c
  · simp [h]
  · simp [h]

theorem twoTaskLoop_spec (jt : List Nat) (ttr : Dict) (kname : String)
    (httr : ∀ t ∈ jt, (dfind ttr t).isSome) (ps : List Ptr) :
    ∀ (σ : Store) (valid : List Ptr) (ws : List String),
    (∀ p ∈ ps, p < σ.length) →
    twoTaskLoop jt ttr kname σ valid ws ps =
      some (σ ++ ttSpec jt ttr (derefsD σ ps),
            valid ++ rangeFrom σ.length (ttSpec jt ttr (derefsD σ ps)).length,
            ws ++ warnTT kname (derefsD σ ps)) := by
  induction ps with
  | nil =>
    intro σ valid ws _
    simp [twoTaskLoop, ttSpec, warnTT, derefsD, rangeFrom]
  | cons p rest ih =>
    intro σ valid ws hb
    have hp : p < σ.length := hb p (List.mem_cons_self _ _)
    obtain ⟨c, hget⟩ : ∃ c, σ.get? p = some c :=
      ⟨σ.get ⟨p, hp⟩, List.get?_eq_get hp⟩
    have hget2 : σ[p]? = some c := by
      rw [← List.get?_eq_getElem?]
      exact hget
    have hrest : ∀ q ∈ rest, q < σ.length :=
      fun q hq => hb q (List.mem_cons_of_mem p hq)
    have hder : derefsD σ (p :: rest) = c :: derefsD σ rest := by
      rw [derefsD_cons, hget]
      rfl
    cases hc1 : c.task1 with
    | none =>
      have hk : keepTT jt (c) = false := by
        simp [keepTT, hc1]
      have hm : isMalfTT (c) = true := by
        simp [isMalfTT, hc1]
      rw [show twoTaskLoop jt ttr kname σ valid ws (p :: rest) =
            twoTaskLoop jt ttr kname σ valid (ws ++ [msgTT kname]) rest by
        simp [twoTaskLoop, hget2, hc1]]
      rw [ih σ valid (ws ++ [msgTT kname]) hrest, hder, ttSpec_cons,
          warnTT_cons, hk, hm]
      simp
    | some t1 =>
      cases hc2 : (c).task2 with
      | none =>
        have hk : keepTT jt (c) = false := by
          simp [keepTT, hc1, hc2]
        have hm : isMalfTT (c) = true := by
          simp [isMalfTT, hc2]
        rw [show twoTaskLoop jt ttr kname σ valid ws (p :: rest) =
              twoTaskLoop jt ttr kname σ valid (ws ++ [msgTT kname]) rest by
          simp [twoTaskLoop, hget2, hc1, hc2]]
        rw [ih σ valid (ws ++ [msgTT kname]) hrest, hder, ttSpec_cons,
            warnTT_cons, hk, hm]
        simp
      | some t2 =>
        have hm : isMalfTT (c) = false := by
          simp [isMalfTT, hc1, hc2]
        by_cases hmem : t1 ∈ jt ∧ t2 ∈ jt
        · obtain ⟨nt1, hnt1⟩ :=
            Option.isSome_iff_exists.mp (httr t1 hmem.1)
          obtain ⟨nt2, hnt2⟩ :=
            Option.isSome_iff_exists.mp (httr t2 hmem.2)
          have hk : keepTT jt (c) = true := by
            simp [keepTT, hc1, hc2, hmem.1, hmem.2]
          have htr : transTT ttr (c) =
              { c with task1 := some nt1, task2 := some nt2 } := by
            simp [transTT, hc1, hc2, hnt1, hnt2]
          rw [show twoTaskLoop jt ttr kname σ valid ws (p :: rest) =
                twoTaskLoop jt ttr kname
                  (σ ++ [{ c with
                           task1 := some nt1, task2 := some nt2 }])
                  (valid ++ [σ.length]) ws rest by
            simp [twoTaskLoop, hget2, hc1, hc2, hmem, hnt1, hnt2,
                  set_append_length]]
          have hext : Extends (σ ++ [{ c with
              task1 := some nt1, task2 := some nt2 }]) σ :=
            extends_append σ _
          have hrest2 : ∀ q ∈ rest,
              q < (σ ++ [{ c with
                task1 := some nt1, task2 := some nt2 }]).length :=
            fun q hq => Nat.lt_of_lt_of_le (hrest q hq) hext.1
          rw [ih _ (valid ++ [σ.length]) ws hrest2,
              derefsD_ext hext hrest, hder, ttSpec_cons, warnTT_cons, hk, hm,
              htr]
          have hlen : (σ ++ [{ c with
              task1 := some nt1, task2 := some nt2 }]).length =
              σ.length + 1 := by simp
          rw [hlen]
          simp [rangeFrom, List.append_assoc]
        · have hk : keepTT jt (c) = false := by
            by_cases h1 : t1 ∈ jt
            · have h2 : t2 ∉ jt := fun h2 => hmem ⟨h1, h2⟩
              simp [keepTT, hc1, hc2, h2]
            · simp [keepTT, hc1, hc2, h1]
          rw [show twoTaskLoop jt ttr kname σ valid ws (p :: rest) =
                twoTaskLoop jt ttr kname σ valid ws rest by
            simp [twoTaskLoop, hget2, hc1, hc2, hmem]]
          rw [ih σ valid ws hrest, hder, ttSpec_cons, warnTT_cons, hk, hm]
          simp

theorem setKind_md (c : Constraints) (k : CKind) (v : List Ptr) :
    (setKind c k v).mode_dependencies = c.mode_dependencies := by
  cases k <;> rfl

theorem getKind_setKind_same (c : Constraints) (k : CKind) (v : List Ptr) :
    getKind (setKind c k v) k = v := by
  cases k <;> rfl

theorem getKind_setKind_ne (c : Constraints) (k k' : CKind) (v : List Ptr)
    (h : k' ≠ k) : getKind (setKind c k v) k' = getKind c k' := by
  cases k <;> cases k' <;> first | rfl | exact absurd rfl h

theorem warnAll_ext {σ' σ : Store} (dc : Constraints) (ks : List CKind)
    (hext : Extends σ' σ)
    (hb : ∀ k ∈ ks, ∀ p ∈ getKind dc k, p < σ.length) :
    warnAll σ' dc ks = warnAll σ dc ks := by
  induction ks with
  | nil => rfl
  | cons k rest ih =>
    unfold warnAll
    rw [derefsD_ext hext (hb k (List.mem_cons_self _ _)),
        ih (fun k' hk' => hb k' (List.mem_cons_of_mem _ hk'))]

theorem warnAll_cons (σ : Store) (dc : Constraints) (k : CKind)
    (rest : List CKind) :
    warnAll σ dc (k :: rest) =
      warnTT (kindName k) (derefsD σ (getKind dc k)) ++ warnAll σ dc rest := rfl

theorem ttSpec_length (jt : List Nat) (ttr : Dict) (cs : List Cons) :
    (ttSpec jt ttr cs).length = ((cs.filter (keepTT jt))).length := by
  simp [ttSpec]

theorem kindLoop_spec (dc : Constraints) (jt : List Nat) (ttr : Dict)
    (httr : ∀ t ∈ jt, (dfind ttr t).isSome) (ks : List CKind) :
    ∀ (σ : Store) (nc : Constraints) (ws : List String),
    ks.Nodup →
    (∀ k ∈ ks, ∀ p ∈ getKind dc k, p < σ.length) →
    ∃ σ' nc' ws', kindLoop dc jt ttr σ nc ws ks = some (σ', nc', ws') ∧
      Extends σ' σ ∧
      nc'.mode_dependencies = nc.mode_dependencies ∧
      ws' = ws ++ warnAll σ dc ks ∧
      (∀ k ∈ ks, derefsD σ' (getKind nc' k) =
          ttSpec jt ttr (derefsD σ (getKind dc k)) ∧
        ∀ p ∈ getKind nc' k, p < σ'.length) ∧
      (∀ k : CKind, k ∉ ks → getKind nc' k = getKind nc k) := by
  induction ks with
  | nil =>
    intro σ nc ws _ _
    exact ⟨σ, nc, ws, rfl, extends_refl σ, rfl, by simp [warnAll],
      by simp, fun k _ => rfl⟩
  | cons k rest ih =>
    intro σ nc ws hnd hb
    have hknotin : k ∉ rest := (List.nodup_cons.mp hnd).1
    have hndr : rest.Nodup := (List.nodup_cons.mp hnd).2
    have hbk : ∀ p ∈ getKind dc k, p < σ.length := hb k (List.mem_cons_self _ _)
    have heq := twoTaskLoop_spec jt ttr (kindName k) httr (getKind dc k)
      σ [] ws hbk
    have hext1 : Extends (σ ++ ttSpec jt ttr (derefsD σ (getKind dc k))) σ :=
      extends_append σ _
    obtain ⟨σ', nc', ws', heq', hext', hmd', hws', hks', hnot'⟩ :=
      ih (σ ++ ttSpec jt ttr (derefsD σ (getKind dc k)))
        (setKind nc k ([] ++ rangeFrom σ.length
          (ttSpec jt ttr (derefsD σ (getKind dc k))).length))
        (ws ++ warnTT (kindName k) (derefsD σ (getKind dc k)))
        hndr
        (fun k' hk' p hp =>
          Nat.lt_of_lt_of_le (hb k' (List.mem_cons_of_mem _ hk') p hp) hext1.1)
    refine ⟨σ', nc', ws', ?_, extends_trans hext' hext1, ?_, ?_, ?_, ?_⟩
    · rw [show kindLoop dc jt ttr σ nc ws (k :: rest) =
            kindLoop dc jt ttr
              (σ ++ ttSpec jt ttr (derefsD σ (getKind dc k)))
              (setKind nc k ([] ++ rangeFrom σ.length
                (ttSpec jt ttr (derefsD σ (getKind dc k))).length))
              (ws ++ warnTT (kindName k) (derefsD σ (getKind dc k))) rest by
        simp [kindLoop, heq]]
      exact heq'
    · rw [hmd', setKind_md]
    · rw [hws', warnAll_ext dc rest hext1
            (fun k' hk' => hb k' (List.mem_cons_of_mem _ hk')), warnAll_cons]
      simp [List.append_assoc]
    · intro k' hk'
      rcases List.mem_cons.mp hk' with hke | hkm
      · subst hke
        have hgk : getKind nc' k' = [] ++ rangeFrom σ.length
            (ttSpec jt ttr (derefsD σ (getKind dc k'))).length := by
          rw [hnot' k' hknotin, getKind_setKind_same]
        constructor
        · rw [hgk]
          have hbound : ∀ p ∈ [] ++ rangeFrom σ.length
              (ttSpec jt ttr (derefsD σ (getKind dc k'))).length,
              p < (σ ++ ttSpec jt ttr (derefsD σ (getKind dc k'))).length := by
            intro p hp
            rw [List.nil_append] at hp
            rw [List.length_append]
            exact ((mem_rangeFrom _ _ _).mp hp).2
          rw [derefsD_ext hext' hbound, List.nil_append]
          have hblk := derefsD_block σ []
            (ttSpec jt ttr (derefsD σ (getKind dc k')))
          simpa using hblk
        · intro p hp
          rw [hgk, List.nil_append] at hp
          have h1 : p < (σ ++ ttSpec jt ttr
              (derefsD σ (getKind dc k'))).length := by
            rw [List.length_append]
            exact ((mem_rangeFrom _ _ _).mp hp).2
          exact Nat.lt_of_lt_of_le h1 hext'.1
      · obtain ⟨hd, hbnd⟩ := hks' k' hkm
        refine ⟨?_, hbnd⟩
        rw [hd, derefsD_ext hext1
            (hb k' (List.mem_cons_of_mem _ hkm))]
    · intro k'' hk''
      have h1 : k'' ∉ rest := fun hm => hk'' (List.mem_cons_of_mem _ hm)
      have h2 : k'' ≠ k := fun he => hk'' (he ▸ List.mem_cons_self _ _)
      rw [hnot' k'' h1, getKind_setKind_ne _ _ _ _ h2]

theorem mdSpec_cons (data : ProblemData) (jt : List Nat) (mtr : Dict)
    (c : Cons) (cs : List Cons) :
    mdSpec data jt mtr (c :: cs) =
      if keepMD data jt c then transMD mtr c :: mdSpec data jt mtr cs
      else mdSpec data jt mtr cs := by
  unfold mdSpec
  rw [List.filter_cons]
  by_cases h : keepMD data jt c
  · simp [h]
  · simp [h]

theorem warnMDs_cons (c : Cons) (cs : List Cons) :
    warnMDs (c :: cs) =
      if isMalfMD c then msgMD :: warnMDs cs else warnMDs cs := by
  unfold warnMDs
  rw [List.filter_cons]
  by_cases h : isMalfMD c
  · simp [h]
  · simp [h]

theorem modeDepLoop_spec (data : ProblemData) (jt : List Nat) (mtr : Dict)
    (ps : List Ptr) :
    ∀ (σ : Store) (valid : List Ptr) (ws : List String),
    (∀ p ∈ ps, p < σ.length) →
    (∀ c ∈ derefsD σ ps, ∀ m1 ms, c.mode1 = some m1 → c.modes2 = some ms →
      m1 < data.modes.length ∧
      ∀ mo, data.modes.get? m1 = some mo → mo.task ∈ jt →
        (dfind mtr m1).isSome ∧ ∀ g ∈ ms, (dfind mtr g).isSome) →
    modeDepLoop data jt mtr σ valid ws ps =
      some (σ ++ mdSpec data jt mtr (derefsD σ ps),
            valid ++
              rangeFrom σ.length (mdSpec data jt mtr (derefsD σ ps)).length,
            ws ++ warnMDs (derefsD σ ps)) := by
  induction ps with
  | nil =>
    intro σ valid ws _ _
    simp [modeDepLoop, mdSpec, warnMDs, derefsD, rangeFrom]
  | cons p rest ih =>
    intro σ valid ws hb hsafe
    have hp : p < σ.length := hb p (List.mem_cons_self _ _)
    obtain ⟨c, hget⟩ : ∃ c, σ.get? p = some c :=
      ⟨σ.get ⟨p, hp⟩, List.get?_eq_get hp⟩
    have hget2 : σ[p]? = some c := by
      rw [← List.get?_eq_getElem?]
      exact hget
    have hrest : ∀ q ∈ rest, q < σ.length :=
      fun q hq => hb q (List.mem_cons_of_mem p hq)
    have hder : derefsD σ (p :: rest) = c :: derefsD σ rest := by
      rw [derefsD_cons, hget]
      rfl
    have hcmem : c ∈ derefsD σ (p :: rest) := by
      rw [hder]
      exact List.mem_cons_self _ _
    have hsrest : ∀ c' ∈ derefsD σ rest, ∀ m1 ms,
        c'.mode1 = some m1 → c'.modes2 = some ms →
        m1 < data.modes.length ∧
        ∀ mo, data.modes.get? m1 = some mo → mo.task ∈ jt →
          (dfind mtr m1).isSome ∧ ∀ g ∈ ms, (dfind mtr g).isSome := by
      intro c' hc' m1 ms h1 h2
      refine hsafe c' ?_ m1 ms h1 h2
      rw [hder]
      exact List.mem_cons_of_mem _ hc'
    cases hc1 : c.mode1 with
    | none =>
      have hk : keepMD data jt c = false := by
        simp [keepMD, hc1]
      have hm : isMalfMD c = true := by
        simp [isMalfMD, hc1]
      rw [show modeDepLoop data jt mtr σ valid ws (p :: rest) =
            modeDepLoop data jt mtr σ valid (ws ++ [msgMD]) rest by
        simp [modeDepLoop, hget2, hc1]]
      rw [ih σ valid (ws ++ [msgMD]) hrest hsrest, hder, mdSpec_cons,
          warnMDs_cons, hk, hm]
      simp
    | some m1 =>
      cases hc2 : c.modes2 with
      | none =>
        have hk : keepMD data jt c = false := by
          simp [keepMD, hc1, hc2]
        have hm : isMalfMD c = true := by
          simp [isMalfMD, hc2]
        rw [show modeDepLoop data jt mtr σ valid ws (p :: rest) =
              modeDepLoop data jt mtr σ valid (ws ++ [msgMD]) rest by
          simp [modeDepLoop, hget2, hc1, hc2]]
        rw [ih σ valid (ws ++ [msgMD]) hrest hsrest, hder, mdSpec_cons,
            warnMDs_cons, hk, hm]
        simp
      | some ms =>
        have hm : isMalfMD c = false := by
          simp [isMalfMD, hc1, hc2]
        obtain ⟨hlt, hdep⟩ := hsafe c hcmem m1 ms hc1 hc2
        obtain ⟨mo, hmo⟩ : ∃ mo, data.modes.get? m1 = some mo :=
          ⟨data.modes.get ⟨m1, hlt⟩, List.get?_eq_get hlt⟩
        have hmo2 : data.modes[m1]? = some mo := by
          rw [← List.get?_eq_getElem?]
          exact hmo
        by_cases hmem : mo.task ∈ jt
        · obtain ⟨hm1s, hgs⟩ := hdep mo hmo hmem
          obtain ⟨nm1, hnm1⟩ := Option.isSome_iff_exists.mp hm1s
          have hmsmap := mapO_isSome (dfind mtr) 0 ms hgs
          have hk : keepMD data jt c = true := by
            simp [keepMD, hc1, hc2, hmo2, hmem]
          have htr : transMD mtr c =
              { c with mode1 := some nm1, modes2 := some (ms.map (fun g => (dfind mtr g).getD 0)) } := by
            simp [transMD, hc1, hc2, hnm1, hmsmap]
          rw [show modeDepLoop data jt mtr σ valid ws (p :: rest) =
                modeDepLoop data jt mtr
                  (σ ++ [{ c with mode1 := some nm1, modes2 := some (ms.map (fun g => (dfind mtr g).getD 0)) }])
                  (valid ++ [σ.length]) ws rest by
            simp [modeDepLoop, hget2, hc1, hc2, hmo2, hmem, hnm1, hmsmap,
                  set_append_length]]
          have hext : Extends (σ ++ [{ c with mode1 := some nm1, modes2 := some (ms.map (fun g => (dfind mtr g).getD 0)) }]) σ :=
            extends_append σ _
          have hrest2 : ∀ q ∈ rest, q < (σ ++ [{ c with mode1 := some nm1, modes2 := some (ms.map (fun g => (dfind mtr g).getD 0)) }]).length :=
            fun q hq => Nat.lt_of_lt_of_le (hrest q hq) hext.1
          have hsrest2 : ∀ c' ∈ derefsD (σ ++ [{ c with mode1 := some nm1, modes2 := some (ms.map (fun g => (dfind mtr g).getD 0)) }]) rest,
              ∀ m1 ms, c'.mode1 = some m1 → c'.modes2 = some ms →
              m1 < data.modes.length ∧
              ∀ mo, data.modes.get? m1 = some mo → mo.task ∈ jt →
                (dfind mtr m1).isSome ∧ ∀ g ∈ ms, (dfind mtr g).isSome := by
            rw [derefsD_ext hext hrest]
            exact hsrest
          rw [ih _ (valid ++ [σ.length]) ws hrest2 hsrest2,
              derefsD_ext hext hrest, hder, mdSpec_cons, warnMDs_cons, hk,
              hm, htr]
          have hlen : (σ ++ [{ c with mode1 := some nm1, modes2 := some (ms.map (fun g => (dfind mtr g).getD 0)) }]).length = σ.length + 1 := by simp
          rw [hlen]
          simp [rangeFrom, List.append_assoc]
        · have hk : keepMD data jt c = false := by
            simp [keepMD, hc1, hc2, hmo2, hmem]
          rw [show modeDepLoop data jt mtr σ valid ws (p :: rest) =
                modeDepLoop data jt mtr σ valid ws rest by
            simp [modeDepLoop, hget2, hc1, hc2, hmo2, hmem]]
          rw [ih σ valid ws hrest hsrest, hder, mdSpec_cons, warnMDs_cons,
              hk, hm]
          simp

theorem getKind_md_update (c : Constraints) (v : List Ptr) (k : CKind) :
    getKind { c with mode_dependencies := v } k = getKind c k := by
  cases k <;> rfl

theorem warnAll_congr {σ1 σ0 : Store} {c1 c0 : Constraints}
    (ks : List CKind)
    (h : ∀ k ∈ ks, derefsD σ1 (getKind c1 k) = derefsD σ0 (getKind c0 k)) :
    warnAll σ1 c1 ks = warnAll σ0 c0 ks := by
  induction ks with
  | nil => rfl
  | cons k rest ih =>
    rw [warnAll_cons, warnAll_cons, h k (List.mem_cons_self _ _),
        ih (fun k' hk' => h k' (List.mem_cons_of_mem _ hk'))]

theorem mem_allowed (k : CKind) : k ∈ allowed_constraints := by
  cases k <;> simp [allowed_constraints]

theorem allowed_nodup : allowed_constraints.Nodup := by decide

theorem ptrsOKb_spec (σ : Store) (c : Constraints)
    (h : ptrsOKb σ c = true) :
    (∀ k : CKind, ∀ p ∈ getKind c k, p < σ.length) ∧
      (∀ p ∈ c.mode_dependencies, p < σ.length) := by
  unfold ptrsOKb at h
  rw [Bool.and_eq_true] at h
  obtain ⟨h1, h2⟩ := h
  rw [List.all_eq_true] at h1 h2
  constructor
  · intro k p hp
    have := h1 k (mem_allowed k)
    rw [List.all_eq_true] at this
    have := this p hp
    exact of_decide_eq_true this
  · intro p hp
    exact of_decide_eq_true (h2 p hp)

theorem mem_jobGModes_of (data : ProblemData) (jt : List Nat) (g : Nat)
    (mo : Mode) (hg : data.modes.get? g = some mo) (hmem : mo.task ∈ jt) :
    g ∈ jobGModes data jt := by
  induction jt with
  | nil => cases hmem
  | cons ot rest ih =>
    show g ∈ taskModeIdx data ot ++ jobGModes data rest
    rcases List.mem_cons.mp hmem with he | hm
    · apply List.mem_append_left
      have hpair : (g, mo) ∈ enumF 0 data.modes := by
        have := get?_mem_enumF 0 g data.modes mo hg
        simpa using this
      have hfil : (g, mo) ∈ taskModePairs data ot := by
        apply List.mem_filter.mpr
        exact ⟨hpair, by simp [he]⟩
      exact List.mem_map.mpr ⟨(g, mo), hfil, rfl⟩
    · exact List.mem_append_right _ (ih hm)

theorem of_mem_jobGModes (data : ProblemData) (jt : List Nat) (g : Nat)
    (h : g ∈ jobGModes data jt) :
    ∃ mo, data.modes.get? g = some mo ∧ mo.task ∈ jt := by
  induction jt with
  | nil => cases h
  | cons ot rest ih =>
    rcases List.mem_append.mp h with hl | hr
    · obtain ⟨p, hp, hpg⟩ := List.mem_map.mp hl
      obtain ⟨hpe, hpt⟩ := List.mem_filter.mp hp
      obtain ⟨k, hk1, hk2⟩ := mem_enumF 0 data.modes p hpe
      refine ⟨p.2, ?_, ?_⟩
      · rw [← hpg, hk1]
        simpa using hk2
      · have : p.2.task = ot := by simpa using hpt
        rw [this]
        exact List.mem_cons_self _ _
    · obtain ⟨mo, h1, h2⟩ := ih hr
      exact ⟨mo, h1, List.mem_cons_of_mem _ h2⟩

theorem mdOKb_spec (σ : Store) (data : ProblemData) (jt : List Nat)
    (h : mdOKb σ data jt = true) :
    ∀ c ∈ derefsD σ data.constraints.mode_dependencies, ∀ m1 ms,
      c.mode1 = some m1 → c.modes2 = some ms →
      m1 < data.modes.length ∧
      ∀ mo, data.modes.get? m1 = some mo → mo.task ∈ jt →
        (dfind (revPairs 0 (jobGModes data jt)) m1).isSome ∧
        ∀ g ∈ ms, (dfind (revPairs 0 (jobGModes data jt)) g).isSome := by
  unfold mdOKb at h
  rw [List.all_eq_true] at h
  intro c hc m1 ms hc1 hc2
  have hcb := h c hc
  rw [hc1, hc2] at hcb
  rw [Bool.and_eq_true] at hcb
  obtain ⟨hlt, hrest⟩ := hcb
  have hltn : m1 < data.modes.length := of_decide_eq_true hlt
  refine ⟨hltn, ?_⟩
  intro mo hmo hmem
  rw [hmo] at hrest
  have hmem1 : m1 ∈ jobGModes data jt := mem_jobGModes_of data jt m1 mo hmo hmem
  refine ⟨dfind_revPairs_isSome _ 0 m1 hmem1, ?_⟩
  rw [Bool.or_eq_true] at hrest
  rcases hrest with hfalse | hall
  · simp [hmem] at hfalse
  · rw [List.all_eq_true] at hall
    intro g hg
    have hthis := hall g hg
    cases hmo2 : data.modes.get? g with
    | none =>
      rw [hmo2] at hthis
      cases hthis
    | some mo2 =>
      rw [hmo2] at hthis
      have hmem2 : mo2.task ∈ jt := of_decide_eq_true hthis
      exact dfind_revPairs_isSome _ 0 g
        (mem_jobGModes_of data jt g mo2 hmo2 hmem2)

theorem filter_spec (σ : Store) (data : ProblemData) (j : Nat) (job : Job)
    (hj : data.jobs.get? j = some job)
    (hts : ∀ t ∈ job.tasks, t < data.tasks.length)
    (hptrs : ptrsOKb σ data.constraints = true)
    (hmdok : mdOKb σ data job.tasks = true) :
    ∃ r, filter_problem_data_per_job σ data j = some r ∧
      r.task_translation = enumF 0 job.tasks ∧
      r.task_translation_reversed = revPairs 0 job.tasks ∧
      r.modes_translation = enumF 0 (jobGModes data job.tasks) ∧
      r.modes_translation_reversed = revPairs 0 (jobGModes data job.tasks) ∧
      r.new_data.jobs = [⟨jobNewIdx job.tasks⟩] ∧
      r.new_data.tasks =
        (jobTasksVals data job.tasks).map (fun t => Task.mk 0 t.allow_idle) ∧
      r.new_data.resources = data.resources ∧
      r.new_data.modes = jobModesFrom data 0 job.tasks ∧
      (∀ k ∈ allowed_constraints,
        derefsD r.store (getKind r.new_data.constraints k) =
          ttSpec job.tasks (revPairs 0 job.tasks)
            (derefsD σ (getKind data.constraints k))) ∧
      derefsD r.store r.new_data.constraints.mode_dependencies =
        mdSpec data job.tasks (revPairs 0 (jobGModes data job.tasks))
          (derefsD σ data.constraints.mode_dependencies) ∧
      r.warnings = warningsSpec σ data.constraints ∧
      σ.length ≤ r.store.length ∧
      (∀ p, p < σ.length → r.store.get? p = σ.get? p) := by
  obtain ⟨hbk, hbm⟩ := ptrsOKb_spec σ data.constraints hptrs
  obtain ⟨st, hst, f1, f2, f3, f4, f5, f6, f7⟩ :=
    taskLoop_spec data job.tasks {} 0 hts
  have g1 : st.task_translation = enumF 0 job.tasks := by simpa using f1
  have g2 : st.task_translation_reversed = revPairs 0 job.tasks := by
    simpa using f2
  have g3 : st.modes_translation = enumF 0 (jobGModes data job.tasks) := by
    simpa using f3
  have g4 : st.modes_translation_reversed =
      revPairs 0 (jobGModes data job.tasks) := by simpa using f4
  have g6 : st.modes_for_problem_data = jobModesFrom data 0 job.tasks := by
    simpa using f6
  have g7 : st.tasks = jobTasksVals data job.tasks := by simpa using f7
  have httr : ∀ t ∈ job.tasks, (dfind (revPairs 0 job.tasks) t).isSome :=
    fun t ht => dfind_revPairs_isSome job.tasks 0 t ht
  have hmap : mapO (dfind (revPairs 0 job.tasks)) job.tasks =
      some (jobNewIdx job.tasks) :=
    mapO_isSome (dfind (revPairs 0 job.tasks)) 0 job.tasks httr
  obtain ⟨σ1, dc, hdeq, hdext, hdvals, hdbounds, hdmdv, hdmdb⟩ :=
    deepcopyConstraints_spec σ data.constraints hbk hbm
  obtain ⟨σ2, nc, ws, hkeq, hkext, hkmd, hkws, hkvals, hknot⟩ :=
    kindLoop_spec dc job.tasks (revPairs 0 job.tasks) httr
      allowed_constraints σ1 {} [] allowed_nodup
      (fun k _ p hp => hdbounds k p hp)
  have hder2 : derefsD σ2 dc.mode_dependencies =
      derefsD σ data.constraints.mode_dependencies := by
    rw [derefsD_ext hkext hdmdb, hdmdv]
  have hmds := mdOKb_spec σ data job.tasks hmdok
  have hsafe2 : ∀ c ∈ derefsD σ2 dc.mode_dependencies, ∀ m1 ms,
      c.mode1 = some m1 → c.modes2 = some ms →
      m1 < data.modes.length ∧
      ∀ mo, data.modes.get? m1 = some mo → mo.task ∈ job.tasks →
        (dfind (revPairs 0 (jobGModes data job.tasks)) m1).isSome ∧
        ∀ g ∈ ms, (dfind (revPairs 0 (jobGModes data job.tasks)) g).isSome := by
    rw [hder2]
    exact hmds
  have hmdbounds2 : ∀ p ∈ dc.mode_dependencies, p < σ2.length :=
    fun p hp => Nat.lt_of_lt_of_le (hdmdb p hp) hkext.1
  have heqmd := modeDepLoop_spec data job.tasks
    (revPairs 0 (jobGModes data job.tasks)) dc.mode_dependencies
    σ2 [] ws hmdbounds2 hsafe2
  set B := mdSpec data job.tasks (revPairs 0 (jobGModes data job.tasks))
    (derefsD σ2 dc.mode_dependencies) with hB
  have hextB : Extends (σ2 ++ B) σ2 := extends_append σ2 _
  have hexttot : Extends (σ2 ++ B) σ :=
    extends_trans (extends_trans hextB hkext) hdext
  refine ⟨⟨σ2 ++ B,
      ⟨[⟨jobNewIdx job.tasks⟩],
       (jobTasksVals data job.tasks).map (fun t => Task.mk 0 t.allow_idle),
       data.resources, jobModesFrom data 0 job.tasks,
       { nc with mode_dependencies := [] ++ rangeFrom σ2.length B.length }⟩,
      enumF 0 job.tasks, enumF 0 (jobGModes data job.tasks),
      revPairs 0 job.tasks, revPairs 0 (jobGModes data job.tasks),
      ws ++ warnMDs (derefsD σ2 dc.mode_dependencies)⟩,
    ?_, rfl, rfl, rfl, rfl, rfl, ?_, rfl, rfl, ?_, ?_, ?_, hexttot.1,
    hexttot.2⟩
  · simp only [filter_problem_data_per_job, hj, hst, hmap, hdeq, g2, g4,
      hkeq, heqmd, g1, g3, g6, g7, Option.bind_eq_bind, Option.some_bind]
  · rfl
  · intro k hk
    show derefsD _ (getKind { nc with mode_dependencies := _ } k) = _
    rw [getKind_md_update]
    rw [derefsD_ext hextB (hkvals k hk).2, (hkvals k hk).1, hdvals k]
  · show derefsD _ ([] ++ rangeFrom σ2.length _) = _
    rw [List.nil_append]
    have hblk := derefsD_block σ2 [] B
    rw [show σ2 ++ (B ++ []) = σ2 ++ B from by simp] at hblk
    rw [hblk, hB, hder2]
  · show ws ++ warnMDs (derefsD σ2 dc.mode_dependencies) = _
    rw [hkws, warnAll_congr allowed_constraints (fun k _ => hdvals k), hder2]
    unfold warningsSpec
    simp

theorem enumF_map_fst (n : Nat) (l : List α) :
    (enumF n l).map Prod.fst = rangeFrom n l.length := by
  induction l generalizing n with
  | nil => rfl
  | cons a l ih => simp [enumF, rangeFrom, ih (n + 1)]

theorem rangeFrom_nodup (s n : Nat) : (rangeFrom s n).Nodup := by
  induction n generalizing s with
  | zero => exact List.nodup_nil
  | succ n ih =>
    rw [show rangeFrom s (n + 1) = s :: rangeFrom (s + 1) n from rfl]
    rw [List.nodup_cons]
    refine ⟨?_, ih (s + 1)⟩
    intro hm
    have := (mem_rangeFrom (s + 1) n s).mp hm
    omega

theorem taskModeIdx_nodup (data : ProblemData) (ot : Nat) :
    (taskModeIdx data ot).Nodup := by
  have hsub : List.Sublist (taskModeIdx data ot)
      ((enumF 0 data.modes).map Prod.fst) :=
    List.Sublist.map Prod.fst (List.filter_sublist _)
  have hnd : ((enumF 0 data.modes).map Prod.fst).Nodup := by
    rw [enumF_map_fst]
    exact rangeFrom_nodup 0 data.modes.length
  exact List.Nodup.sublist hsub hnd

theorem mem_taskModeIdx (data : ProblemData) (ot g : Nat)
    (h : g ∈ taskModeIdx data ot) :
    ∃ mo, data.modes.get? g = some mo ∧ mo.task = ot := by
  obtain ⟨p, hp, hpg⟩ := List.mem_map.mp h
  obtain ⟨hpe, hpt⟩ := List.mem_filter.mp hp
  obtain ⟨k, hk1, hk2⟩ := mem_enumF 0 data.modes p hpe
  refine ⟨p.2, ?_, by simpa using hpt⟩
  rw [← hpg, hk1]
  simpa using hk2

theorem jobGModes_nodup (data : ProblemData) (jt : List Nat)
    (hnd : jt.Nodup) : (jobGModes data jt).Nodup := by
  induction jt with
  | nil => exact List.nodup_nil
  | cons ot rest ih =>
    have h1 : ot ∉ rest := (List.nodup_cons.mp hnd).1
    have h2 : rest.Nodup := (List.nodup_cons.mp hnd).2
    show (taskModeIdx data ot ++ jobGModes data rest).Nodup
    apply List.Nodup.append (taskModeIdx_nodup data ot) (ih h2)
    intro g hg1 hg2
    obtain ⟨mo, hmo, hmot⟩ := mem_taskModeIdx data ot g hg1
    obtain ⟨mo2, hmo2, hmot2⟩ := of_mem_jobGModes data rest g hg2
    rw [hmo] at hmo2
    injection hmo2 with he
    rw [← he, hmot] at hmot2
    exact h1 hmot2

theorem jobNewIdx_nodup (jt : List Nat) (hnd : jt.Nodup) :
    jobNewIdx jt = rangeFrom 0 jt.length := by
  apply List.ext_get?
  intro k
  rw [show jobNewIdx jt =
        jt.map (fun t => (dfind (revPairs 0 jt) t).getD 0) from rfl,
      List.get?_map, rangeFrom_get?]
  by_cases hk : k < jt.length
  · obtain ⟨t, ht⟩ : ∃ t, jt.get? k = some t :=
      ⟨jt.get ⟨k, hk⟩, List.get?_eq_get hk⟩
    rw [ht, if_pos hk]
    simp [dfind_revPairs_nodup jt 0 t k hnd ht]
  · rw [List.get?_eq_none.mpr (by omega), if_neg hk]
    rfl

theorem filter_some_spec (σ : Store) (data : ProblemData) (j : Nat)
    (job : Job) (r : FilterResult)
    (hj : data.jobs.get? j = some job)
    (hts : ∀ t ∈ job.tasks, t < data.tasks.length)
    (hptrs : ptrsOKb σ data.constraints = true)
    (hmdok : mdOKb σ data job.tasks = true)
    (hr : filter_problem_data_per_job σ data j = some r) :
    r.task_translation = enumF 0 job.tasks ∧
      r.task_translation_reversed = revPairs 0 job.tasks ∧
      r.modes_translation = enumF 0 (jobGModes data job.tasks) ∧
      r.modes_translation_reversed = revPairs 0 (jobGModes data job.tasks) ∧
      r.new_data.jobs = [⟨jobNewIdx job.tasks⟩] ∧
      r.new_data.tasks =
        (jobTasksVals data job.tasks).map (fun t => Task.mk 0 t.allow_idle) ∧
      r.new_data.resources = data.resources ∧
      r.new_data.modes = jobModesFrom data 0 job.tasks ∧
      (∀ k ∈ allowed_constraints,
        derefsD r.store (getKind r.new_data.constraints k) =
          ttSpec job.tasks (revPairs 0 job.tasks)
            (derefsD σ (getKind data.constraints k))) ∧
      derefsD r.store r.new_data.constraints.mode_dependencies =
        mdSpec data job.tasks (revPairs 0 (jobGModes data job.tasks))
          (derefsD σ data.constraints.mode_dependencies) ∧
      r.warnings = warningsSpec σ data.constraints ∧
      σ.length ≤ r.store.length ∧
      (∀ p, p < σ.length → r.store.get? p = σ.get? p) := by
  obtain ⟨r', heq, hprops⟩ := filter_spec σ data j job hj hts hptrs hmdok
  rw [hr] at heq
  injection heq with heq
  rw [heq]
  exact hprops

/-- C3: for every problem instance and job, extraction yields a subproblem
containing exactly the job's tasks (same count, job field 0, `allow_idle`
preserved, positions renumbered consecutively from 0), exactly the modes
whose owning task belongs to the job (grouped per task, owning-task
references rewritten to local indices), and a single job record listing
the renumbered task indices `0, 1, ...`. -/
theorem C3_subproblem_shape (σ : Store) (data : ProblemData) (j : Nat)
    (job : Job) (r : FilterResult)
    (hj : data.jobs.get? j = some job)
    (hnd : job.tasks.Nodup)
    (hts : ∀ t ∈ job.tasks, t < data.tasks.length)
    (hptrs : ptrsOKb σ data.constraints = true)
    (hmdok : mdOKb σ data job.tasks = true)
    (hr : filter_problem_data_per_job σ data j = some r) :
    r.new_data.tasks.length = job.tasks.length ∧
    (∀ i, r.new_data.tasks.get? i = (job.tasks.get? i).map
      (fun t => Task.mk 0 (((data.tasks.get? t).getD ⟨0, false⟩).allow_idle))) ∧
    r.new_data.modes = jobModesFrom data 0 job.tasks ∧
    r.new_data.jobs = [⟨rangeFrom 0 job.tasks.length⟩] := by
  obtain ⟨_, _, _, _, hjobs, htasks, _, hmodes, _⟩ :=
    filter_some_spec σ data j job r hj hts hptrs hmdok hr
  refine ⟨?_, ?_, hmodes, ?_⟩
  · rw [htasks]
    simp [jobTasksVals]
  · intro i
    rw [htasks, List.get?_map,
        show jobTasksVals data job.tasks =
          job.tasks.map (fun t => (data.tasks.get? t).getD ⟨0, false⟩)
          from rfl,
        List.get?_map]
    cases job.tasks.get? i <;> rfl
  · rw [hjobs, jobNewIdx_nodup job.tasks hnd]

theorem C3_subproblem_shape_witness :
    (cdata.jobs.get? 0 = some ⟨[0, 1]⟩ ∧ (Job.mk [0, 1]).tasks.Nodup ∧
      (∀ t ∈ (Job.mk [0, 1]).tasks, t < cdata.tasks.length) ∧
      ptrsOKb cστ cdata.constraints = true ∧
      mdOKb cστ cdata (Job.mk [0, 1]).tasks = true ∧
      filter_problem_data_per_job cστ cdata 0 = some R0) ∧
    R0.new_data.jobs = [⟨rangeFrom 0 (Job.mk [0, 1]).tasks.length⟩] :=
  ⟨⟨by decide, by decide, by decide, by decide, by decide, by decide⟩,
   (C3_subproblem_shape cστ cdata 0 ⟨[0, 1]⟩ R0 (by decide) (by decide)
     (by decide) (by decide) (by decide) (by decide)).2.2.2⟩

/-- C4: for every two-task constraint of a retained kind, the extracted
subproblem's list of that kind holds (as values) exactly the constraints
whose two tasks both belong to the job's task set, in order, with both
task references rewritten through the reversed task translator;
constraints crossing job boundaries and malformed ones contribute
nothing. -/
theorem C4_twotask_filtering (σ : Store) (data : ProblemData) (j : Nat)
    (job : Job) (r : FilterResult)
    (hj : data.jobs.get? j = some job)
    (hts : ∀ t ∈ job.tasks, t < data.tasks.length)
    (hptrs : ptrsOKb σ data.constraints = true)
    (hmdok : mdOKb σ data job.tasks = true)
    (hr : filter_problem_data_per_job σ data j = some r) :
    ∀ k ∈ allowed_constraints,
      derefsD r.store (getKind r.new_data.constraints k) =
        ttSpec job.tasks (revPairs 0 job.tasks)
          (derefsD σ (getKind data.constraints k)) := by
  obtain ⟨_, _, _, _, _, _, _, _, hcons, _⟩ :=
    filter_some_spec σ data j job r hj hts hptrs hmdok hr
  exact hcons

theorem C4_twotask_filtering_witness :
    (cdata.jobs.get? 0 = some ⟨[0, 1]⟩ ∧
      filter_problem_data_per_job cστ cdata 0 = some R0) ∧
    derefsD R0.store (getKind R0.new_data.constraints .end_before_start) =
      ttSpec (Job.mk [0, 1]).tasks (revPairs 0 (Job.mk [0, 1]).tasks)
        (derefsD cστ (getKind cdata.constraints .end_before_start)) :=
  ⟨⟨by decide, by decide⟩,
   C4_twotask_filtering cστ cdata 0 ⟨[0, 1]⟩ R0 (by decide) (by decide)
     (by decide) (by decide) (by decide) CKind.end_before_start (by decide)⟩

/-- C5 counterexample: a well-formed instance (all indices in range, both
mode attributes present) whose single mode dependency has its driving
mode owned by job 0's task but a dependent mode owned by job 1's task;
the claim says the extraction rewrites the dependent mode and succeeds,
but `filter_problem_data_per_job` raises a KeyError (returns `none`). -/
theorem C5_counterexample :
    (cσC.get? 0 = some ⟨none, none, some 0, some [1], 0⟩) ∧
    ((cdataC.modes.get? 0).map Mode.task = some 0) ∧
    (0 ∈ (cdataC.jobs.getD 0 ⟨[]⟩).tasks) ∧
    filter_problem_data_per_job cσC cdataC 0 = none := by decide

/-- C5 (amended): a mode dependency is retained iff its driving mode's
owning task belongs to the job, with the driving-mode index and every
dependent-mode index rewritten through the reversed mode translator; the
extraction succeeds under the proviso (part of `mdOKb`) that every
dependent mode of a retained dependency is itself owned by one of the
job's tasks — without that proviso it raises a KeyError. -/
theorem C5_modedep_filtering (σ : Store) (data : ProblemData) (j : Nat)
    (job : Job)
    (hj : data.jobs.get? j = some job)
    (hts : ∀ t ∈ job.tasks, t < data.tasks.length)
    (hptrs : ptrsOKb σ data.constraints = true)
    (hmdok : mdOKb σ data job.tasks = true) :
    (filter_problem_data_per_job σ data j).isSome = true ∧
    ∀ r, filter_problem_data_per_job σ data j = some r →
      derefsD r.store r.new_data.constraints.mode_dependencies =
        mdSpec data job.tasks (revPairs 0 (jobGModes data job.tasks))
          (derefsD σ data.constraints.mode_dependencies) := by
  obtain ⟨r', heq, hprops⟩ := filter_spec σ data j job hj hts hptrs hmdok
  constructor
  · rw [heq]
    rfl
  · intro r hr
    rw [heq] at hr
    injection hr with hr
    rw [← hr]
    exact hprops.2.2.2.2.2.2.2.2.2.1

theorem C5_modedep_filtering_witness :
    (cdata.jobs.get? 0 = some ⟨[0, 1]⟩ ∧
      mdOKb cστ cdata (Job.mk [0, 1]).tasks = true) ∧
    derefsD R0.store R0.new_data.constraints.mode_dependencies =
      mdSpec cdata (Job.mk [0, 1]).tasks
        (revPairs 0 (jobGModes cdata (Job.mk [0, 1]).tasks))
        (derefsD cστ cdata.constraints.mode_dependencies) :=
  ⟨⟨by decide, by decide⟩,
   (C5_modedep_filtering cστ cdata 0 ⟨[0, 1]⟩ (by decide) (by decide)
     (by decide) (by decide)).2 R0 (by decide)⟩

/-- C6: on a duplicate-free job, translating a local task or mode index
to its global index and back (in either order) returns the original
index, for every index in the translator's domain; a query outside the
domain returns no binding (a KeyError) rather than a default value. -/
theorem C6_translator_roundtrip (σ : Store) (data : ProblemData) (j : Nat)
    (job : Job) (r : FilterResult)
    (hj : data.jobs.get? j = some job)
    (hnd : job.tasks.Nodup)
    (hts : ∀ t ∈ job.tasks, t < data.tasks.length)
    (hptrs : ptrsOKb σ data.constraints = true)
    (hmdok : mdOKb σ data job.tasks = true)
    (hr : filter_problem_data_per_job σ data j = some r) :
    (∀ k g, dfind r.task_translation k = some g →
      dfind r.task_translation_reversed g = some k) ∧
    (∀ g k, dfind r.task_translation_reversed g = some k →
      dfind r.task_translation k = some g) ∧
    (∀ k, job.tasks.length ≤ k → dfind r.task_translation k = none) ∧
    (∀ g, g ∉ job.tasks → dfind r.task_translation_reversed g = none) ∧
    (∀ k g, dfind r.modes_translation k = some g →
      dfind r.modes_translation_reversed g = some k) ∧
    (∀ g k, dfind r.modes_translation_reversed g = some k →
      dfind r.modes_translation k = some g) ∧
    (∀ k, (jobGModes data job.tasks).length ≤ k →
      dfind r.modes_translation k = none) ∧
    (∀ g, (∀ mo, data.modes.get? g = some mo → mo.task ∉ job.tasks) →
      dfind r.modes_translation_reversed g = none) := by
  obtain ⟨h1, h2, h3, h4, _⟩ :=
    filter_some_spec σ data j job r hj hts hptrs hmdok hr
  have hgnd : (jobGModes data job.tasks).Nodup := jobGModes_nodup data _ hnd
  refine ⟨?_, ?_, ?_, ?_, ?_, ?_, ?_, ?_⟩
  · intro k g hkg
    rw [h1, dfind_enumF0] at hkg
    rw [h2]
    have := dfind_revPairs_nodup job.tasks 0 g k hnd hkg
    simpa using this
  · intro g k hgk
    rw [h2] at hgk
    obtain ⟨k', hk', hget⟩ := dfind_revPairs_sound job.tasks 0 g k hgk
    rw [h1, dfind_enumF0]
    rw [hk']
    simpa using hget
  · intro k hk
    rw [h1, dfind_enumF0]
    exact List.get?_eq_none.mpr hk
  · intro g hg
    rw [h2]
    exact dfind_revPairs_not_mem job.tasks 0 g hg
  · intro k g hkg
    rw [h3, dfind_enumF0] at hkg
    rw [h4]
    have := dfind_revPairs_nodup _ 0 g k hgnd hkg
    simpa using this
  · intro g k hgk
    rw [h4] at hgk
    obtain ⟨k', hk', hget⟩ := dfind_revPairs_sound _ 0 g k hgk
    rw [h3, dfind_enumF0]
    rw [hk']
    simpa using hget
  · intro k hk
    rw [h3, dfind_enumF0]
    exact List.get?_eq_none.mpr hk
  · intro g hg
    rw [h4]
    apply dfind_revPairs_not_mem
    intro hmem
    obtain ⟨mo, hmo, hmt⟩ := of_mem_jobGModes data job.tasks g hmem
    exact hg mo hmo hmt

theorem C6_translator_roundtrip_witness :
    (filter_problem_data_per_job cστ cdata 0 = some R0 ∧
      dfind R0.modes_translation 2 = some 3) ∧
    dfind R0.modes_translation_reversed 3 = some 2 :=
  ⟨⟨by decide, by decide⟩,
   (C6_translator_roundtrip cστ cdata 0 ⟨[0, 1]⟩ R0 (by decide) (by decide)
     (by decide) (by decide) (by decide) (by decide)).2.2.2.2.1 2 3
     (by decide)⟩

/-- C8: an extraction whose inputs satisfy only pointer validity and the
mode-dependency range/locality conditions (`ptrsOKb`, `mdOKb` — neither
imposes anything on a constraint lacking its `task1`/`task2` or
`mode1`/`modes2` attributes) always succeeds, and its printed warnings
are exactly one diagnostic per malformed constraint, in processing
order: malformed constraints are skipped and never abort the
extraction. -/
theorem C8_malformed_skipped (σ : Store) (data : ProblemData) (j : Nat)
    (job : Job)
    (hj : data.jobs.get? j = some job)
    (hts : ∀ t ∈ job.tasks, t < data.tasks.length)
    (hptrs : ptrsOKb σ data.constraints = true)
    (hmdok : mdOKb σ data job.tasks = true) :
    (filter_problem_data_per_job σ data j).isSome = true ∧
    ∀ r, filter_problem_data_per_job σ data j = some r →
      r.warnings = warningsSpec σ data.constraints := by
  obtain ⟨r', heq, hprops⟩ := filter_spec σ data j job hj hts hptrs hmdok
  constructor
  · rw [heq]
    rfl
  · intro r hr
    rw [heq] at hr
    injection hr with hr
    rw [← hr]
    exact hprops.2.2.2.2.2.2.2.2.2.2.1

theorem C8_malformed_skipped_witness :
    ((cστ.get? 2 = some ⟨none, some 0, none, none, 9⟩) ∧
      cdata.constraints.consecutive = [2] ∧
      (filter_problem_data_per_job cστ cdata 0).isSome = true) ∧
    R0.warnings = warningsSpec cστ cdata.constraints :=
  ⟨⟨by decide, by decide, by decide⟩,
   (C8_malformed_skipped cστ cdata 0 ⟨[0, 1]⟩ (by decide) (by decide)
     (by decide) (by decide)).2 R0 (by decide)⟩

/-- C9: the extracted subproblem's resource list is the original
instance's resource list, unchanged and not renumbered, whatever the
job's modes use. -/
theorem C9_resources_unchanged (σ : Store) (data : ProblemData) (j : Nat)
    (job : Job) (r : FilterResult)
    (hj : data.jobs.get? j = some job)
    (hts : ∀ t ∈ job.tasks, t < data.tasks.length)
    (hptrs : ptrsOKb σ data.constraints = true)
    (hmdok : mdOKb σ data job.tasks = true)
    (hr : filter_problem_data_per_job σ data j = some r) :
    r.new_data.resources = data.resources := by
  obtain ⟨_, _, _, _, _, _, hres, _⟩ :=
    filter_some_spec σ data j job r hj hts hptrs hmdok hr
  exact hres

theorem C9_resources_unchanged_witness :
    (filter_problem_data_per_job cστ cdata 0 = some R0) ∧
    R0.new_data.resources = cdata.resources :=
  ⟨by decide,
   C9_resources_unchanged cστ cdata 0 ⟨[0, 1]⟩ R0 (by decide) (by decide)
     (by decide) (by decide) (by decide)⟩

/-- C10: extraction never mutates the input: every constraint object the
input store held before the call is unchanged afterwards (the store only
grows — the deep copy and the per-constraint copies are written to fresh
cells, so the original constraints' task and mode index fields are
intact); the input instance's jobs, tasks, modes and resources are
values the embedding's extraction cannot write to at all. -/
theorem C10_no_mutation (σ : Store) (data : ProblemData) (j : Nat)
    (job : Job) (r : FilterResult)
    (hj : data.jobs.get? j = some job)
    (hts : ∀ t ∈ job.tasks, t < data.tasks.length)
    (hptrs : ptrsOKb σ data.constraints = true)
    (hmdok : mdOKb σ data job.tasks = true)
    (hr : filter_problem_data_per_job σ data j = some r) :
    σ.length ≤ r.store.length ∧
    ∀ p, p < σ.length → r.store.get? p = σ.get? p := by
  obtain ⟨_, _, _, _, _, _, _, _, _, _, _, hlen, hpres⟩ :=
    filter_some_spec σ data j job r hj hts hptrs hmdok hr
  exact ⟨hlen, hpres⟩

theorem C10_no_mutation_witness :
    (filter_problem_data_per_job cστ cdata 0 = some R0 ∧ 3 < cστ.length) ∧
    R0.store.get? 3 = cστ.get? 3 :=
  ⟨⟨by decide, by decide⟩,
   (C10_no_mutation cστ cdata 0 ⟨[0, 1]⟩ R0 (by decide) (by decide)
     (by decide) (by decide) (by decide)).2 3 (by decide)⟩

theorem jobModesFrom_length (data : ProblemData) (jt : List Nat) :
    ∀ n, (jobModesFrom data n jt).length = (jobGModes data jt).length := by
  induction jt with
  | nil => intro n; rfl
  | cons ot rest ih =>
    intro n
    show ((taskModePairs data ot).map _ ++ jobModesFrom data (n + 1) rest).length
      = (taskModeIdx data ot ++ jobGModes data rest).length
    rw [List.length_append, List.length_append, List.length_map, ih (n + 1)]
    simp [taskModeIdx]

theorem jobModes_corr (data : ProblemData) (jt : List Nat) :
    ∀ (n m g : Nat) (pm : Mode),
    (jobGModes data jt).get? m = some g →
    (jobModesFrom data n jt).get? m = some pm →
    ∃ mo, data.modes.get? g = some mo ∧ n ≤ pm.task ∧
      jt.get? (pm.task - n) = some mo.task := by
  induction jt with
  | nil =>
    intro n m g pm h
    cases h
  | cons ot rest ih =>
    intro n m g pm hg hm
    have hlenF : (taskModeIdx data ot).length =
        ((taskModePairs data ot).map
          (fun p => Mode.mk n p.2.resources p.2.duration p.2.demands)).length := by
      simp [taskModeIdx]
    by_cases hmlt : m < (taskModeIdx data ot).length
    · rw [show jobGModes data (ot :: rest) =
            taskModeIdx data ot ++ jobGModes data rest from rfl,
          List.get?_append hmlt] at hg
      rw [show jobModesFrom data n (ot :: rest) =
            (taskModePairs data ot).map
              (fun p => Mode.mk n p.2.resources p.2.duration p.2.demands) ++
              jobModesFrom data (n + 1) rest from rfl,
          List.get?_append (by rw [← hlenF]; exact hmlt)] at hm
      rw [show taskModeIdx data ot = (taskModePairs data ot).map Prod.fst
            from rfl, List.get?_map] at hg
      rw [List.get?_map] at hm
      cases hF : (taskModePairs data ot).get? m with
      | none =>
        rw [hF] at hg
        cases hg
      | some q =>
        rw [hF] at hg hm
        simp only [Option.map_some'] at hg hm
        injection hg with hg
        injection hm with hm
        have hqmem : q ∈ taskModePairs data ot := List.get?_mem hF
        obtain ⟨hqe, hqt⟩ := List.mem_filter.mp hqmem
        obtain ⟨kk, hk1, hk2⟩ := mem_enumF 0 data.modes q hqe
        refine ⟨q.2, ?_, ?_, ?_⟩
        · rw [← hg, hk1]
          simpa using hk2
        · rw [← hm]
        · rw [← hm]
          show (ot :: rest).get? (n - n) = some q.2.task
          rw [Nat.sub_self]
          have hq2 : q.2.task = ot := by simpa using hqt
          simp [List.get?, hq2]
    · have hge : (taskModeIdx data ot).length ≤ m := Nat.le_of_not_lt hmlt
      rw [show jobGModes data (ot :: rest) =
            taskModeIdx data ot ++ jobGModes data rest from rfl,
          List.get?_append_right hge] at hg
      rw [show jobModesFrom data n (ot :: rest) =
            (taskModePairs data ot).map
              (fun p => Mode.mk n p.2.resources p.2.duration p.2.demands) ++
              jobModesFrom data (n + 1) rest from rfl,
          List.get?_append_right (by rw [← hlenF]; exact hge)] at hm
      rw [← hlenF] at hm
      obtain ⟨mo, hmo, hle, hjt⟩ :=
        ih (n + 1) (m - (taskModeIdx data ot).length) g pm hg hm
      refine ⟨mo, hmo, Nat.le_of_succ_le hle, ?_⟩
      have hsub : pm.task - n = (pm.task - (n + 1)) + 1 := by omega
      rw [hsub]
      show rest.get? (pm.task - (n + 1)) = some mo.task
      exact hjt

theorem subproblemAt_eq (data : ProblemData) (σ0 : Store) (j : Nat)
    (σ : Store) (r : FilterResult)
    (htr : storeTrace data σ0 j = some σ)
    (hf : filter_problem_data_per_job σ data j = some r) :
    subproblemAt data σ0 j = some r.new_data := by
  simp [subproblemAt, htr, hf]

theorem storeTrace_succ (data : ProblemData) (σ0 : Store) (j : Nat)
    (σ : Store) (r : FilterResult)
    (htr : storeTrace data σ0 j = some σ)
    (hf : filter_problem_data_per_job σ data j = some r) :
    storeTrace data σ0 (j + 1) = some r.store := by
  simp [storeTrace, htr, hf]

theorem ptrsOKb_mono (σ σ' : Store) (c : Constraints)
    (h : ptrsOKb σ c = true) (hle : σ.length ≤ σ'.length) :
    ptrsOKb σ' c = true := by
  obtain ⟨h1, h2⟩ := ptrsOKb_spec σ c h
  unfold ptrsOKb
  rw [Bool.and_eq_true]
  constructor
  · rw [List.all_eq_true]
    intro k hk
    rw [List.all_eq_true]
    intro p hp
    exact decide_eq_true (Nat.lt_of_lt_of_le (h1 k p hp) hle)
  · rw [List.all_eq_true]
    intro p hp
    exact decide_eq_true (Nat.lt_of_lt_of_le (h2 p hp) hle)

theorem mdOKb_ext (σ σ' : Store) (data : ProblemData) (jt : List Nat)
    (hext : Extends σ' σ)
    (hbm : ∀ p ∈ data.constraints.mode_dependencies, p < σ.length)
    (h : mdOKb σ data jt = true) : mdOKb σ' data jt = true := by
  unfold mdOKb at h ⊢
  rw [derefsD_ext hext hbm]
  exact h

theorem jobLoop_spec (solve : ProblemData → SolRes) (data : ProblemData)
    (σ0 : Store)
    (hptrs : ptrsOKb σ0 data.constraints = true)
    (hjobsOK : ∀ j ∈ rangeFrom 0 data.jobs.length,
      (∀ t ∈ (data.jobs.getD j ⟨[]⟩).tasks, t < data.tasks.length) ∧
        mdOKb σ0 data (data.jobs.getD j ⟨[]⟩).tasks = true)
    (hsolve : solverOKb solve data σ0 = true) :
    ∀ (k j : Nat) (σ : Store) (sched : List TaskData) (rtp : Nat),
      j + k ≤ data.jobs.length →
      storeTrace data σ0 j = some σ →
      Extends σ σ0 →
      ∃ σ' extra rtp',
        jobLoop solve data σ sched rtp (rangeFrom j k) =
          some (σ', sched ++ extra, rtp') ∧
        extra.length = (tasksOfJobs data (rangeFrom j k)).length ∧
        ∀ i td, extra.get? i = some td →
          ∃ t, (tasksOfJobs data (rangeFrom j k)).get? i = some t ∧
            Owns data td t := by
  intro k
  induction k with
  | zero =>
    intro j σ sched rtp hjk htr hext
    refine ⟨σ, [], rtp, ?_, rfl, ?_⟩
    · show jobLoop solve data σ sched rtp [] = some (σ, sched ++ [], rtp)
      rw [List.append_nil]
      rfl
    · intro i td h
      cases h
  | succ k ih =>
    intro j σ sched rtp hjk htr hext
    have hjlt : j < data.jobs.length := by omega
    obtain ⟨job, hjob⟩ : ∃ job, data.jobs.get? j = some job :=
      ⟨data.jobs.get ⟨j, hjlt⟩, List.get?_eq_get hjlt⟩
    have hjmem : j ∈ rangeFrom 0 data.jobs.length := by
      rw [mem_rangeFrom]
      omega
    have hgetD : data.jobs.getD j ⟨[]⟩ = job := by
      rw [List.getD_eq_get?, hjob]
      rfl
    obtain ⟨hts, hmd0⟩ := hjobsOK j hjmem
    rw [hgetD] at hts hmd0
    have hptrsσ : ptrsOKb σ data.constraints = true :=
      ptrsOKb_mono σ0 σ _ hptrs hext.1
    have hbm0 : ∀ p ∈ data.constraints.mode_dependencies, p < σ0.length :=
      (ptrsOKb_spec σ0 _ hptrs).2
    have hmdσ : mdOKb σ data job.tasks = true :=
      mdOKb_ext σ0 σ data job.tasks hext hbm0 hmd0
    obtain ⟨r, hfeq, props⟩ := filter_spec σ data j job hjob hts hptrsσ hmdσ
    obtain ⟨_, _, hmt, _, _, htasks, _, hmodes, _, _, _, hslen, hspres⟩ := props
    have hsub : subproblemAt data σ0 j = some r.new_data :=
      subproblemAt_eq data σ0 j σ r htr hfeq
    have hval : SolValid r.new_data (solve r.new_data) := by
      rw [solverOKb, List.all_eq_true] at hsolve
      have hv := hsolve j hjmem
      rw [hsub] at hv
      exact of_decide_eq_true hv
    obtain ⟨hvlen, hvmode⟩ := hval
    have hmodelen : r.new_data.modes.length =
        (jobGModes data job.tasks).length := by
      rw [hmodes, jobModesFrom_length]
    have hmodelt : ∀ i otd, (solve r.new_data).tasks.get? i = some otd →
        otd.mode < (jobGModes data job.tasks).length := by
      intro i otd hot
      have hq := hvmode (i, otd) (by simpa using get?_mem_enumF 0 i _ otd hot)
      by_cases hlt : otd.mode < r.new_data.modes.length
      · omega
      · rw [List.get?_eq_none.mpr (Nat.le_of_not_lt hlt)] at hq
        cases hq
    have hfisSome : ∀ otd ∈ (solve r.new_data).tasks,
        ((dfind r.modes_translation otd.mode).map (fun gm =>
          TaskData.mk gm (otd.start + rtp) (otd.end_ + rtp)
            otd.resources)).isSome := by
      intro otd hotd
      obtain ⟨i, hi⟩ := List.mem_iff_get?.mp hotd
      have hlt2 := hmodelt i otd hi
      rw [hmt, dfind_enumF0, List.get?_eq_get hlt2]
      rfl
    have hmapo := mapO_isSome (fun otd =>
        (dfind r.modes_translation otd.mode).map (fun gm =>
          TaskData.mk gm (otd.start + rtp) (otd.end_ + rtp) otd.resources))
      (TaskData.mk 0 0 0 []) (solve r.new_data).tasks hfisSome
    set entries := (solve r.new_data).tasks.map (fun otd =>
      (((dfind r.modes_translation otd.mode).map (fun gm =>
        TaskData.mk gm (otd.start + rtp) (otd.end_ + rtp)
          otd.resources)).getD (TaskData.mk 0 0 0 []))) with hentries
    have hentlen : entries.length = job.tasks.length := by
      rw [hentries, List.length_map, hvlen, htasks]
      simp [jobTasksVals]
    have hstep : jobLoop solve data σ sched rtp (rangeFrom j (k + 1)) =
        jobLoop solve data r.store (sched ++ entries)
          (rtp + (solve r.new_data).makespan + 12) (rangeFrom (j + 1) k) := by
      rw [show rangeFrom j (k + 1) = j :: rangeFrom (j + 1) k from rfl]
      simp [jobLoop, hfeq, hmapo]
    have htr' : storeTrace data σ0 (j + 1) = some r.store :=
      storeTrace_succ data σ0 j σ r htr hfeq
    have hext' : Extends r.store σ0 :=
      extends_trans ⟨hslen, hspres⟩ hext
    obtain ⟨σ', extra', rtp', heq', hlen', hown'⟩ :=
      ih (j + 1) r.store (sched ++ entries)
        (rtp + (solve r.new_data).makespan + 12) (by omega) htr' hext'
    refine ⟨σ', entries ++ extra', rtp', ?_, ?_, ?_⟩
    · rw [hstep, heq', List.append_assoc]
    · rw [show tasksOfJobs data (rangeFrom j (k + 1)) =
            (data.jobs.getD j ⟨[]⟩).tasks ++
              tasksOfJobs data (rangeFrom (j + 1) k) from rfl, hgetD]
      rw [List.length_append, List.length_append, hentlen, hlen']
    · intro i td hi
      rw [show tasksOfJobs data (rangeFrom j (k + 1)) =
            (data.jobs.getD j ⟨[]⟩).tasks ++
              tasksOfJobs data (rangeFrom (j + 1) k) from rfl, hgetD]
      by_cases hilt : i < entries.length
      · rw [List.get?_append hilt] at hi
        rw [hentries, List.get?_map] at hi
        cases hot : (solve r.new_data).tasks.get? i with
        | none =>
          rw [hot] at hi
          cases hi
        | some otd =>
          rw [hot] at hi
          simp only [Option.map_some'] at hi
          injection hi with hi
          have hlt2 := hmodelt i otd hot
          obtain ⟨g, hg⟩ : ∃ g, (jobGModes data job.tasks).get? otd.mode =
              some g :=
            ⟨(jobGModes data job.tasks).get ⟨otd.mode, hlt2⟩,
             List.get?_eq_get hlt2⟩
          have hdf : dfind r.modes_translation otd.mode = some g := by
            rw [hmt, dfind_enumF0]
            exact hg
          rw [hdf] at hi
          simp only [Option.map_some', Option.getD_some] at hi
          have hq := hvmode (i, otd)
            (by simpa using get?_mem_enumF 0 i _ otd hot)
          cases hpm : r.new_data.modes.get? otd.mode with
          | none =>
            rw [hpm] at hq
            cases hq
          | some pm =>
            rw [hpm] at hq
            simp only [Option.map_some'] at hq
            injection hq with hq
            rw [hmodes] at hpm
            obtain ⟨mo, hmo, _, hjt⟩ :=
              jobModes_corr data job.tasks 0 otd.mode g pm hg hpm
            rw [Nat.sub_zero, hq] at hjt
            refine ⟨mo.task, ?_, ?_⟩
            · rw [List.get?_append (by omega : i < job.tasks.length)]
              exact hjt
            · rw [← hi]
              show (data.modes.get? g).map Mode.task = some mo.task
              rw [hmo]
              rfl
      · have hge : entries.length ≤ i := Nat.le_of_not_lt hilt
        rw [List.get?_append_right hge] at hi
        obtain ⟨t, ht, hown⟩ := hown' (i - entries.length) td hi
        refine ⟨t, ?_, hown⟩
        rw [List.get?_append_right (by omega : job.tasks.length ≤ i),
            show i - job.tasks.length = i - entries.length from by omega]
        exact ht

theorem find_initial_spec (solve : ProblemData → SolRes) (data : ProblemData)
    (σ0 : Store)
    (hptrs : ptrsOKb σ0 data.constraints = true)
    (hjobsOK : ∀ j ∈ rangeFrom 0 data.jobs.length,
      (∀ t ∈ (data.jobs.getD j ⟨[]⟩).tasks, t < data.tasks.length) ∧
        mdOKb σ0 data (data.jobs.getD j ⟨[]⟩).tasks = true)
    (hsolve : solverOKb solve data σ0 = true)
    (hjoin : tasksOfJobs data (rangeFrom 0 data.jobs.length) =
      rangeFrom 0 data.tasks.length) :
    ∃ σ' sched rtp',
      find_initial_solution_by_solving_per_job solve σ0 data =
        some (σ', sched, rtp') ∧
      sched.length = data.tasks.length ∧
      ∀ t, t < data.tasks.length →
        ∃ td, sched.get? t = some td ∧ Owns data td t ∧
          ∀ i td', sched.get? i = some td' → Owns data td' t → i = t := by
  obtain ⟨σ', extra, rtp', heq, hlen, hown⟩ :=
    jobLoop_spec solve data σ0 hptrs hjobsOK hsolve data.jobs.length 0 σ0 [] 0
      (by omega) rfl (extends_refl σ0)
  rw [List.nil_append] at heq
  have hlen' : extra.length = data.tasks.length := by
    rw [hlen, hjoin, rangeFrom_length]
  have hsl : ∀ i td, extra.get? i = some td → Owns data td i := by
    intro i td h
    obtain ⟨t, ht, hOwns⟩ := hown i td h
    rw [hjoin, rangeFrom_get?] at ht
    by_cases hi : i < data.tasks.length
    · rw [if_pos hi] at ht
      injection ht with ht
      rw [← ht] at hOwns
      simpa using hOwns
    · rw [if_neg hi] at ht
      cases ht
  refine ⟨σ', extra, rtp', ?_, hlen', ?_⟩
  · rw [find_initial_solution_by_solving_per_job, heq]
    simp [hlen']
  · intro t hT
    obtain ⟨td, htd⟩ : ∃ td, extra.get? t = some td :=
      ⟨extra.get ⟨t, by rw [hlen']; exact hT⟩,
       List.get?_eq_get (by rw [hlen']; exact hT)⟩
    refine ⟨td, htd, hsl t td htd, ?_⟩
    intro i td' hi hOwns'
    have h2 := hsl i td' hi
    have h3 : some i = some t := h2.symm.trans hOwns'
    injection h3 with h4

theorem find_initial_length (solve : ProblemData → SolRes) (σ0 : Store)
    (data : ProblemData) (σ' : Store) (sched : List TaskData) (rtp' : Nat)
    (h : find_initial_solution_by_solving_per_job solve σ0 data =
      some (σ', sched, rtp')) :
    sched.length = data.tasks.length := by
  unfold find_initial_solution_by_solving_per_job at h
  cases hj : jobLoop solve data σ0 [] 0 (rangeFrom 0 data.jobs.length) with
  | none =>
    rw [hj] at h
    simp only [Option.bind_eq_bind, Option.none_bind] at h
    cases h
  | some trip =>
    rw [hj] at h
    obtain ⟨σ1, sch1, rtp1⟩ := trip
    simp only [Option.bind_eq_bind, Option.some_bind] at h
    by_cases hc : sch1.length = data.tasks.length
    · rw [if_pos hc] at h
      injection h with h
      have h2 : sch1 = sched := congrArg (fun p => p.2.1) h
      rw [← h2]
      exact hc
    · rw [if_neg hc] at h
      cases h

/-- The warm-start orchestrator on `cdataA`, whose jobs list their tasks
out of ascending global order, succeeds but puts into slot 0 an entry
whose mode is owned by task 1: the assembled schedule is not
slot-indexed by task, although the instance is well formed and the
stand-in solver meets its contract. -/
theorem C1_counterexample :
    find_initial_solution_by_solving_per_job greedySolve [] cdataA =
      some ([], [⟨1, 0, 3, [0]⟩, ⟨0, 15, 17, [0]⟩], 29) ∧
    slotOwnedB cdataA [⟨1, 0, 3, [0]⟩, ⟨0, 15, 17, [0]⟩] 0 = false ∧
    ptrsOKb [] cdataA.constraints = true ∧
    solverOKb greedySolve cdataA [] = true ∧
    (∀ j ∈ rangeFrom 0 cdataA.jobs.length,
      (∀ t ∈ (cdataA.jobs.getD j ⟨[]⟩).tasks, t < cdataA.tasks.length) ∧
        mdOKb [] cdataA (cdataA.jobs.getD j ⟨[]⟩).tasks = true) := by
  decide

/-- **C1** (corrected). The orchestrator translates each subproblem
entry's mode back to its global index and shifts its times by the
accumulated offset, but it appends the entries job by job in processing
order rather than writing each into the slot of its owning global task.
Slot `t` of the assembled schedule therefore describes task `t` only
under the additional layout hypothesis that the concatenation of the
job task lists in job order is exactly `0, 1, …, n-1`; with it (and
instance well-formedness plus the solver contract) the run succeeds and
the entry in slot `t` carries a mode owned by task `t`. -/
theorem C1_stitching (solve : ProblemData → SolRes) (data : ProblemData)
    (σ0 : Store)
    (hptrs : ptrsOKb σ0 data.constraints = true)
    (hjobsOK : ∀ j ∈ rangeFrom 0 data.jobs.length,
      (∀ t ∈ (data.jobs.getD j ⟨[]⟩).tasks, t < data.tasks.length) ∧
        mdOKb σ0 data (data.jobs.getD j ⟨[]⟩).tasks = true)
    (hsolve : solverOKb solve data σ0 = true)
    (hjoin : tasksOfJobs data (rangeFrom 0 data.jobs.length) =
      rangeFrom 0 data.tasks.length) :
    ∃ σ' sched rtp',
      find_initial_solution_by_solving_per_job solve σ0 data =
        some (σ', sched, rtp') ∧
      ∀ t, t < data.tasks.length →
        ∃ td, sched.get? t = some td ∧ Owns data td t := by
  obtain ⟨σ', sched, rtp', heq, _, hprop⟩ :=
    find_initial_spec solve data σ0 hptrs hjobsOK hsolve hjoin
  refine ⟨σ', sched, rtp', heq, ?_⟩
  intro t ht
  obtain ⟨td, h1, h2, _⟩ := hprop t ht
  exact ⟨td, h1, h2⟩

theorem C1_stitching_witness :
    (ptrsOKb [] cdataD.constraints = true ∧
      (∀ j ∈ rangeFrom 0 cdataD.jobs.length,
        (∀ t ∈ (cdataD.jobs.getD j ⟨[]⟩).tasks, t < cdataD.tasks.length) ∧
          mdOKb [] cdataD (cdataD.jobs.getD j ⟨[]⟩).tasks = true) ∧
      solverOKb greedySolve cdataD [] = true ∧
      tasksOfJobs cdataD (rangeFrom 0 cdataD.jobs.length) =
        rangeFrom 0 cdataD.tasks.length) ∧
    (∃ σ' sched rtp',
      find_initial_solution_by_solving_per_job greedySolve [] cdataD =
        some (σ', sched, rtp') ∧
      ∀ t, t < cdataD.tasks.length →
        ∃ td, sched.get? t = some td ∧ Owns cdataD td t) :=
  ⟨⟨by decide, by decide, by decide, by decide⟩,
   C1_stitching greedySolve cdataD [] (by decide) (by decide) (by decide)
     (by decide)⟩

/-- On `cdataB`, where both jobs list task 0 and task 1 belongs to no
job, the orchestrator's final assert compares only entry count with
task count: the run succeeds although task 0 receives two schedule
entries and task 1 receives none. -/
theorem C2_counterexample :
    find_initial_solution_by_solving_per_job greedySolve [] cdataB =
      some ([], [⟨0, 0, 2, [0]⟩, ⟨0, 14, 16, [0]⟩], 28) ∧
    cdataB.tasks.length = 2 ∧
    entriesForTask cdataB [⟨0, 0, 2, [0]⟩, ⟨0, 14, 16, [0]⟩] 0 = 2 ∧
    entriesForTask cdataB [⟨0, 0, 2, [0]⟩, ⟨0, 14, 16, [0]⟩] 1 = 0 := by
  decide

/-- **C2** (corrected). The orchestrator's only loud failure is the
final assert, and that assert checks entry *count* against task count,
not the exactly-one-entry-per-task invariant: a run can succeed with a
task double-set and another unset (`C2_counterexample`). What holds:
every successful run has as many entries as tasks, and under the layout
hypothesis that the job task lists concatenate to `0, 1, …, n-1` (plus
well-formedness and the solver contract) the run succeeds and every
task `t` has exactly one entry — the one in slot `t` — whose mode it
owns. -/
theorem C2_count_assert (solve : ProblemData → SolRes) (data : ProblemData)
    (σ0 : Store)
    (hptrs : ptrsOKb σ0 data.constraints = true)
    (hjobsOK : ∀ j ∈ rangeFrom 0 data.jobs.length,
      (∀ t ∈ (data.jobs.getD j ⟨[]⟩).tasks, t < data.tasks.length) ∧
        mdOKb σ0 data (data.jobs.getD j ⟨[]⟩).tasks = true)
    (hsolve : solverOKb solve data σ0 = true)
    (hjoin : tasksOfJobs data (rangeFrom 0 data.jobs.length) =
      rangeFrom 0 data.tasks.length) :
    (∀ σ' sched rtp',
      find_initial_solution_by_solving_per_job solve σ0 data =
        some (σ', sched, rtp') →
      sched.length = data.tasks.length) ∧
    ∃ σ' sched rtp',
      find_initial_solution_by_solving_per_job solve σ0 data =
        some (σ', sched, rtp') ∧
      sched.length = data.tasks.length ∧
      ∀ t, t < data.tasks.length →
        ∃ td, sched.get? t = some td ∧ Owns data td t ∧
          ∀ i td', sched.get? i = some td' → Owns data td' t → i = t :=
  ⟨fun σ' sched rtp' h => find_initial_length solve σ0 data σ' sched rtp' h,
   find_initial_spec solve data σ0 hptrs hjobsOK hsolve hjoin⟩

theorem C2_count_assert_witness :
    (ptrsOKb [] cdataD.constraints = true ∧
      (∀ j ∈ rangeFrom 0 cdataD.jobs.length,
        (∀ t ∈ (cdataD.jobs.getD j ⟨[]⟩).tasks, t < cdataD.tasks.length) ∧
          mdOKb [] cdataD (cdataD.jobs.getD j ⟨[]⟩).tasks = true) ∧
      solverOKb greedySolve cdataD [] = true ∧
      tasksOfJobs cdataD (rangeFrom 0 cdataD.jobs.length) =
        rangeFrom 0 cdataD.tasks.length) ∧
    ((∀ σ' sched rtp',
      find_initial_solution_by_solving_per_job greedySolve [] cdataD =
        some (σ', sched, rtp') →
      sched.length = cdataD.tasks.length) ∧
    ∃ σ' sched rtp',
      find_initial_solution_by_solving_per_job greedySolve [] cdataD =
        some (σ', sched, rtp') ∧
      sched.length = cdataD.tasks.length ∧
      ∀ t, t < cdataD.tasks.length →
        ∃ td, sched.get? t = some td ∧ Owns cdataD td t ∧
          ∀ i td', sched.get? i = some td' → Owns cdataD td' t → i = t) :=
  ⟨⟨by decide, by decide, by decide, by decide⟩,
   C2_count_assert greedySolve cdataD [] (by decide) (by decide) (by decide)
     (by decide)⟩

/-- **C7**. The orchestrator walks the jobs strictly in job-list order
starting from offset 0; each job's entries are shifted by the offset
accumulated over the prior jobs, and after each job the offset advances
by that job's subproblem makespan plus the fixed 12-unit buffer. For a
two-job instance whose per-job extractions and entry translations
succeed and whose entry count matches the task count, the run returns
exactly job 0's entries followed by job 1's entries, the final offset is
`m0 + 12 + m1 + 12`, and every entry of job 1 starts at or after
`m0 + 12`. -/
theorem C7_offset_buffer (solve : ProblemData → SolRes) (σ0 : Store)
    (data : ProblemData) (r0 r1 : FilterResult) (e0 e1 : List TaskData)
    (hjobs : data.jobs.length = 2)
    (hf0 : filter_problem_data_per_job σ0 data 0 = some r0)
    (hf1 : filter_problem_data_per_job r0.store data 1 = some r1)
    (he0 : mapO (fun otd => (dfind r0.modes_translation otd.mode).map
        (fun gm => TaskData.mk gm (otd.start + 0) (otd.end_ + 0)
          otd.resources))
      (solve r0.new_data).tasks = some e0)
    (he1 : mapO (fun otd => (dfind r1.modes_translation otd.mode).map
        (fun gm => TaskData.mk gm
          (otd.start + (0 + (solve r0.new_data).makespan + 12))
          (otd.end_ + (0 + (solve r0.new_data).makespan + 12))
          otd.resources))
      (solve r1.new_data).tasks = some e1)
    (hlen : e0.length + e1.length = data.tasks.length) :
    find_initial_solution_by_solving_per_job solve σ0 data =
      some (r1.store, e0 ++ e1,
        (solve r0.new_data).makespan + 12 +
          (solve r1.new_data).makespan + 12) ∧
    ∀ td ∈ e1, (solve r0.new_data).makespan + 12 ≤ td.start := by
  have hloop : jobLoop solve data σ0 [] 0 [0, 1] =
      some (r1.store, e0 ++ e1,
        0 + (solve r0.new_data).makespan + 12 +
          (solve r1.new_data).makespan + 12) := by
    simp only [jobLoop, hf0, he0, hf1, he1, Option.bind_eq_bind,
      Option.some_bind, List.nil_append]
  have hr : rangeFrom 0 data.jobs.length = [0, 1] := by
    rw [hjobs]
    rfl
  constructor
  · unfold find_initial_solution_by_solving_per_job
    rw [hr, hloop]
    simp only [Option.bind_eq_bind, Option.some_bind]
    rw [if_pos (by rw [List.length_append]; exact hlen), Nat.zero_add]
  · intro td htd
    obtain ⟨otd, hotd, hfo⟩ := mapO_mem _ _ _ he1 td htd
    cases hdf : dfind r1.modes_translation otd.mode with
    | none =>
      rw [hdf] at hfo
      cases hfo
    | some gm =>
      rw [hdf] at hfo
      simp only [Option.map_some'] at hfo
      injection hfo with hfo
      rw [← hfo]
      show (solve r0.new_data).makespan + 12 ≤
        otd.start + (0 + (solve r0.new_data).makespan + 12)
      omega

theorem C7_offset_buffer_witness :
    (cdataD.jobs.length = 2 ∧
      filter_problem_data_per_job [] cdataD 0 = some D0 ∧
      filter_problem_data_per_job D0.store cdataD 1 = some D1 ∧
      mapO (fun otd => (dfind D0.modes_translation otd.mode).map
        (fun gm => TaskData.mk gm (otd.start + 0) (otd.end_ + 0)
          otd.resources))
        (greedySolve D0.new_data).tasks = some E0 ∧
      mapO (fun otd => (dfind D1.modes_translation otd.mode).map
        (fun gm => TaskData.mk gm
          (otd.start + (0 + (greedySolve D0.new_data).makespan + 12))
          (otd.end_ + (0 + (greedySolve D0.new_data).makespan + 12))
          otd.resources))
        (greedySolve D1.new_data).tasks = some E1 ∧
      E0.length + E1.length = cdataD.tasks.length) ∧
    (find_initial_solution_by_solving_per_job greedySolve [] cdataD =
      some (D1.store, E0 ++ E1,
        (greedySolve D0.new_data).makespan + 12 +
          (greedySolve D1.new_data).makespan + 12) ∧
    ∀ td ∈ E1, (greedySolve D0.new_data).makespan + 12 ≤ td.start) :=
  ⟨⟨by decide, by decide, by decide, by decide, by decide, by decide⟩,
   C7_offset_buffer greedySolve [] cdataD D0 D1 E0 E1 (by decide)
     (by decide) (by decide) (by decide) (by decide) (by decide)⟩

end Warmstart
